import Mathlib

/-!
# Verification of the bolt12-ts codec

A shallow embedding, in Lean, of the bolt12-ts library (BOLT 12 offer /
invoice-request / invoice / invoice-error codec with BIP-340 signing over a
Merkle tree of TLV entries), together with proofs and refutations of the
specification claims about it.

Conventions of the embedding:

* Byte strings are `List Nat`, each element intended to be `< 256`.  Where a
  JavaScript bitwise read (`(b1 << 8) | b2` on `Uint8Array` elements, or the
  `& 0xffffffff` unsigned fix-up) is equivalent to plain arithmetic on bytes,
  the arithmetic form is used and noted.
* JavaScript strings are `List Char`.
* `bigint` values are `Nat` (the claims under study never involve negative
  values; the negative-input throw sites of the source are noted where they
  occur).
* A function that can `throw` returns `Except Err α`, with one `Err`
  constructor per distinct throw site/message of the source.
* External dependencies (`schnorr.sign`, `schnorr.verify` from
  `@noble/curves`) are passed as explicit function parameters; `sha256` from
  `@noble/hashes` is modelled by an executable FIPS 180-4 SHA-256 so that
  Merkle roots are concretely computable.
-/

namespace Bolt12

/-- One error constructor per distinct throw site of the library. -/
inductive Err : Type
  /-- tlv.ts `decodeBigSize`: "Invalid TLV: unexpected end of stream". -/
  | endOfStream
  /-- tlv.ts `decodeBigSize`: "Invalid BigSize: truncated u16". -/
  | truncatedU16
  /-- tlv.ts `decodeBigSize`: "Invalid BigSize: truncated u32". -/
  | truncatedU32
  /-- tlv.ts `decodeBigSize`: "Invalid BigSize: truncated u64". -/
  | truncatedU64
  /-- tlv.ts `decodeBigSize`: "Invalid BigSize: non-minimal encoding". -/
  | nonMinimal
  /-- tlv.ts `decodeTlvStream`: "Invalid TLV: truncated value". -/
  | truncatedTlvValue
  /-- utils.ts `bytesToTu64`: "byte array too long for a 64-bit integer". -/
  | tu64TooLong
  /-- utils.ts `tu64ToBytes`: "tu64 value too large". -/
  | tu64TooLarge
  /-- utils.ts `numberToBytesBE`: "value too large for length". -/
  | numberTooLarge
  /-- bech32m.ts `convertBits`: "Excess padding". -/
  | excessPadding
  /-- bech32m.ts `convertBits`: "Non-zero padding". -/
  | nonZeroPadding
  /-- bech32m.ts `bolt12Decode`: "Mixed case in bolt12 string". -/
  | mixedCase
  /-- bech32m.ts `bolt12Decode`: "missing separator". -/
  | missingSeparator
  /-- bech32m.ts `bolt12Decode`: "empty data". -/
  | emptyData
  /-- bech32m.ts `bolt12Decode`: "Invalid character in bolt12 string". -/
  | invalidChar
  /-- decode.ts `decodeBolt12`: "Unknown BOLT 12 HRP". -/
  | unknownHrp
  /-- signature.ts `computeMerkleRoot`: "no TLV entries". -/
  | merkleEmpty
  /-- encode.ts `encodeOffer`: "Offer must have either issuerId or paths". -/
  | noIssuerIdOrPaths
  /-- encode.ts / decode.ts: "Offer with amount must have a description". -/
  | amountWithoutDescription
  /-- encode.ts / decode.ts: "Offer with currency must have an amount". -/
  | currencyWithoutAmount
  /-- encode.ts `encodeInvoiceError`: "must have an error message";
      decode.ts `decodeInvoiceError`: "must have an error message (TLV type 5)". -/
  | missingErrorMessage
  /-- encode.ts `encodeInvoiceError` / decode.ts `decodeInvoiceError`:
      suggested_value without erroneous_field. -/
  | suggestedValueWithoutErroneousField
  /-- encode.ts `encodeBip353Name`: "BIP-353 name too long". -/
  | bipNameTooLong
  /-- encode.ts `encodeBip353Name`: "BIP-353 domain too long". -/
  | bipDomainTooLong
  /-- decode.ts `decodeBlindedPaths`: "missing blinding_pubkey". -/
  | bpMissingBlinding
  /-- decode.ts `decodeBlindedPaths`: "missing num_hops". -/
  | bpMissingNumHops
  /-- decode.ts `decodeBlindedPaths`: "missing hop node_id". -/
  | bpMissingNodeId
  /-- decode.ts `decodeBlindedPaths`: "missing encrypted_data_len". -/
  | bpMissingDataLen
  /-- decode.ts `decodeBlindedPaths`: "truncated encrypted_data". -/
  | bpTruncatedData
  /-- decode.ts `parseBip353Name`: "missing name_len". -/
  | bipMissingNameLen
  /-- decode.ts `parseBip353Name`: "truncated name". -/
  | bipTruncatedName
  /-- decode.ts `parseBip353Name`: "missing domain_len". -/
  | bipMissingDomainLen
  /-- decode.ts `parseBip353Name`: "truncated domain". -/
  | bipTruncatedDomain
  /-- decode.ts `parseBip353Name`: "name: contains invalid characters". -/
  | bipInvalidName
  /-- decode.ts `parseBip353Name`: "domain: contains invalid characters". -/
  | bipInvalidDomain
  /-- decode.ts `parseBlindedPayInfoArray`: "truncated entry". -/
  | payinfoTruncated
  /-- decode.ts `parseBlindedPayInfoArray`: "truncated features". -/
  | payinfoTruncatedFeatures
  /-- decode.ts `parseFallbackAddresses`: "truncated entry". -/
  | fallbackTruncated
  /-- decode.ts `parseFallbackAddresses`: "truncated address". -/
  | fallbackTruncatedAddress
  /-- decode.ts `decodeInvoiceRequest`: "must have invreq_metadata". -/
  | missingInvreqMetadata
  /-- decode.ts `decodeInvoiceRequest`: "must have a valid invreq_payer_id". -/
  | invalidPayerId
  /-- decode.ts `decodeInvoiceRequest` / `decodeInvoice`: "must have a valid
      signature (64 bytes)". -/
  | invalidSignatureField
  /-- decode.ts `decodeInvoice`: "must have invoice_created_at". -/
  | missingCreatedAt
  /-- decode.ts `decodeInvoice`: "must have a valid invoice_payment_hash". -/
  | invalidPaymentHash
  /-- decode.ts `decodeInvoice`: "must have a valid invoice_node_id". -/
  | invalidNodeId
  /-- decode.ts `decodeInvoice`: "must have invoice_paths". -/
  | missingInvoicePaths
  /-- decode.ts `decodeInvoice`: "must have invoice_blindedpay". -/
  | missingBlindedPay
  /-- encode.ts / decode.ts: "Number of invoice_paths and blinded_payinfo
      must match". -/
  | pathsPayinfoMismatch
  /-- signature.ts `verifyBolt12Signature`: "Invalid signature length". -/
  | invalidSignatureLength
  /-- signature.ts `verifyBolt12Signature`: "Invalid public key length". -/
  | invalidPublicKeyLength
deriving DecidableEq, Repr

/-- Big-endian bytes of the low `len` bytes of `v`: utils.ts writes
`buf[i] = Number(num & 0xffn); num >>= 8n` from the last index down. -/
def natToBytesBE : Nat → Nat → List Nat
  | 0, _ => []
  | n + 1, v => natToBytesBE n (v / 256) ++ [v % 256]

/-- Big-endian read of a byte list (`num = (num << 8n) | byte` in decode.ts
`bytesToBigintBE`; `|` on a fresh low byte is addition). -/
def bytesToNatBE (l : List Nat) : Nat :=
  l.foldl (fun a b => a * 256 + b) 0

/-- utils.ts `numberToBytesBE`: writes the `len` low bytes and throws
"value too large for length" when a non-zero quotient remains. -/
def numberToBytesBE (value len : Nat) : Except Err (List Nat) :=
  if value < 256 ^ len then .ok (natToBytesBE len value) else .error .numberTooLarge

/-- tlv.ts `encodeBigSize` (negative input cannot arise for a `Nat`).
`buf[1] = (v >> 8) & 0xff; buf[2] = v & 0xff` etc. is exactly the big-endian
byte expansion `natToBytesBE`. -/
def encodeBigSize (v : Nat) : List Nat :=
  if v ≤ 0xfc then [v]
  else if v ≤ 0xffff then 0xfd :: natToBytesBE 2 v
  else if v ≤ 0xffffffff then 0xfe :: natToBytesBE 4 v
  else 0xff :: natToBytesBE 8 v

/-- tlv.ts `decodeBigSize`.  The JavaScript shifted-or reads
`(b1 << 8) | b2` (and the `& 0xffffffff`-corrected 4-byte read, and the
BigInt 8-byte fold) all equal the plain big-endian value of the bytes read,
which is how they are written here. -/
def decodeBigSize (bytes : List Nat) (off : Nat) : Except Err (Nat × Nat) :=
  if off ≥ bytes.length then .error .endOfStream
  else
    let first := bytes.getD off 0
    if first ≤ 0xfc then .ok (first, off + 1)
    else if first = 0xfd then
      if off + 3 > bytes.length then .error .truncatedU16
      else
        let val := bytesToNatBE ((bytes.drop (off + 1)).take 2)
        if val < 0xfd then .error .nonMinimal else .ok (val, off + 3)
    else if first = 0xfe then
      if off + 5 > bytes.length then .error .truncatedU32
      else
        let val := bytesToNatBE ((bytes.drop (off + 1)).take 4)
        if val < 0x10000 then .error .nonMinimal else .ok (val, off + 5)
    else
      if off + 9 > bytes.length then .error .truncatedU64
      else
        let val := bytesToNatBE ((bytes.drop (off + 1)).take 8)
        if val < 0x100000000 then .error .nonMinimal else .ok (val, off + 9)

/-- utils.ts `tu64ToBytes`: minimal big-endian encoding, empty for zero,
rejecting values above 2⁶⁴ − 1 (negative inputs cannot arise for a `Nat`).
The hex-string construction of the source emits exactly the big-endian bytes
of `v` without leading zero bytes. -/
def tu64ToBytes (v : Nat) : Except Err (List Nat) :=
  if v > 18446744073709551615 then .error .tu64TooLarge
  else if v = 0 then .ok []
  else .ok ((natToBytesBE 8 v).dropWhile (· = 0))

/-- tlv.ts `encodeTu64` delegates to `tu64ToBytes`. -/
def encodeTu64 (v : Nat) : Except Err (List Nat) :=
  tu64ToBytes v

/-- utils.ts `bytesToTu64`: rejects more than 8 bytes, otherwise the
big-endian value. -/
def bytesToTu64 (bytes : List Nat) : Except Err Nat :=
  if bytes.length > 8 then .error .tu64TooLong else .ok (bytesToNatBE bytes)

/-- tlv.ts `decodeTu64` delegates to `bytesToTu64`. -/
def decodeTu64 (bytes : List Nat) : Except Err Nat :=
  bytesToTu64 bytes

/-- types.ts `TlvEntry`.  The redundant `length` field of the source always
equals `value.length` at every observation point (`serializeTlv` and
`encodeTlvStream` re-derive it from `value`, and `decodeTlvStream` stores the
byte count of the exact slice it read), so it is dropped here. -/
structure TlvEntry : Type where
  type : Nat
  value : List Nat
deriving DecidableEq, Repr

/-- tlv.ts `encodeTlvStream`: BigSize(type) ‖ BigSize(length) ‖ value per
entry. -/
def encodeTlvStream (tlvStream : List TlvEntry) : List Nat :=
  tlvStream.foldr (fun t acc => encodeBigSize t.type ++ encodeBigSize t.value.length ++ t.value ++ acc) []

/-- One step of tlv.ts `decodeTlvStream`: read BigSize type, BigSize length,
then that many value bytes. -/
def decodeTlvStep (bytes : List Nat) (off : Nat) : Except Err (TlvEntry × Nat) := do
  let (type, afterType) ← decodeBigSize bytes off
  let (length, afterLength) ← decodeBigSize bytes afterType
  if afterLength + length > bytes.length then
    .error .truncatedTlvValue
  else
    .ok (⟨type, (bytes.drop afterLength).take length⟩, afterLength + length)

/-- Fuelled loop of tlv.ts `decodeTlvStream` (each iteration consumes at
least one byte, so `bytes.length` iterations always suffice). -/
def decodeTlvLoop : Nat → List Nat → Nat → Except Err (List TlvEntry)
  | 0, _, _ => .ok []
  | fuel + 1, bytes, off =>
    if off ≥ bytes.length then .ok []
    else do
      let (entry, off2) ← decodeTlvStep bytes off
      let rest ← decodeTlvLoop fuel bytes off2
      .ok (entry :: rest)

/-- tlv.ts `decodeTlvStream`: repeated `decodeTlvStep` from offset 0 until
the input is exhausted. -/
def decodeTlvStream (bytes : List Nat) : Except Err (List TlvEntry) :=
  decodeTlvLoop bytes.length bytes 0

/-- The inner `while (bits >= outBits)` loop of bech32m.ts `convertBits`:
emits `(value >>> bits) & maxv` words until fewer than `outB` bits remain.
Fuelled (each pass removes `outB ≥ 1` bits, so `bits` passes suffice);
returns the emitted words and the remaining bit count. -/
def cbEmit (outB : Nat) : Nat → Nat → Nat → List Nat × Nat
  | 0, _, bits => ([], bits)
  | fuel + 1, value, bits =>
    if outB ≤ bits then
      let b2 := bits - outB
      let w := (value >>> b2) &&& ((1 <<< outB) - 1)
      let (ws, r) := cbEmit outB fuel value b2
      (w :: ws, r)
    else ([], bits)

/-- One iteration of the `for` loop of bech32m.ts `convertBits`:
`value = (value << inBits) | data[i]` (a 32-bit JavaScript operation, hence
the reduction mod 2³²; later reads only use bits below 32), then the
emission loop.  State is `(value, bits, result)`. -/
def cbStep (inB outB : Nat) (st : Nat × Nat × List Nat) (d : Nat) : Nat × Nat × List Nat :=
  let value := ((st.1 <<< inB) ||| d) % 4294967296
  let bits := st.2.1 + inB
  let out := cbEmit outB bits value bits
  (value, out.2, st.2.2 ++ out.1)

/-- bech32m.ts `convertBits`.  The final-word expression
`(value << (outBits - bits)) & maxv` is a 32-bit shift followed by the
`maxv = (1 << outBits) - 1` mask. -/
def convertBits (data : List Nat) (inB outB : Nat) (pad : Bool) : Except Err (List Nat) :=
  let st := data.foldl (cbStep inB outB) (0, 0, [])
  let lastWord := (st.1 <<< (outB - st.2.1)) % 4294967296 &&& ((1 <<< outB) - 1)
  if pad then
    if 0 < st.2.1 then .ok (st.2.2 ++ [lastWord]) else .ok st.2.2
  else
    if st.2.1 ≥ inB then .error .excessPadding
    else if lastWord ≠ 0 then .error .nonZeroPadding
    else .ok st.2.2

/-- bech32m.ts `CHARSET`, as a character list. -/
def CHARSET : List Char :=
  ['q', 'p', 'z', 'r', 'y', '9', 'x', '8', 'g', 'f', '2', 't', 'v', 'd', 'w', '0',
   's', '3', 'j', 'n', '5', '4', 'k', 'h', 'c', 'e', '6', 'm', 'u', 'a', '7', 'l']

/-- `CHARSET[w]` for a 5-bit word (all words fed to `bolt12Encode` are
below 32, so the out-of-range fallback is never observed). -/
def charsetChar (w : Nat) : Char :=
  CHARSET.getD w ' '

/-- bech32m.ts `bolt12Encode`: `hrp + '1' +` one charset character per
word; no checksum. -/
def bolt12Encode (hrp : List Char) (data : List Nat) : List Char :=
  hrp ++ '1' :: data.map charsetChar

/-- The character class `\s` of the stripping regex in `bolt12Decode`,
restricted to the ASCII whitespace characters (the Unicode additions of
JavaScript's `\s` are unreachable in the claims under study). -/
def jsWhitespace (c : Char) : Bool :=
  c = ' ' ∨ c = '\t' ∨ c = '\n' ∨ c = '\r' ∨ c = '\x0b' ∨ c = '\x0c'

/-- `bechString.replace(/\+\s*/g, '')` of bech32m.ts `bolt12Decode`, as a
left-to-right scan.  The flag records that the scan is inside the
whitespace run following a `+`. -/
def stripPlusAux : Bool → List Char → List Char
  | _, [] => []
  | skipping, c :: rest =>
    if skipping ∧ jsWhitespace c then stripPlusAux true rest
    else if c = '+' then stripPlusAux true rest
    else c :: stripPlusAux false rest

/-- The whitespace-and-plus stripping pass of bech32m.ts `bolt12Decode`. -/
def stripPlus (s : List Char) : List Char :=
  stripPlusAux false s

/-- `CHARSET.indexOf(c)` (`none` for the −1 of the source). -/
def charsetIndexAux : List Char → Char → Nat → Option Nat
  | [], _, _ => none
  | x :: rest, c, i => if x = c then some i else charsetIndexAux rest c (i + 1)

/-- `CHARSET.indexOf(c)` over the full charset. -/
def charsetIndex (c : Char) : Option Nat :=
  charsetIndexAux CHARSET c 0

/-- bech32m.ts `bolt12Decode` (no checksum).  `Char.toLower`/`Char.toUpper`
are the ASCII case maps, which agree with JavaScript's on every character
reachable here.  `pos < 1` of the source covers both "no separator"
(indexOf = −1) and "separator first" (pos = 0); both take the
missing-separator throw. -/
def bolt12Decode (bechString : List Char) : Except Err (List Char × List Nat) :=
  let cleaned := stripPlus bechString
  let lower := cleaned.map Char.toLower
  let upper := cleaned.map Char.toUpper
  if cleaned ≠ lower ∧ cleaned ≠ upper then .error .mixedCase
  else
    match List.findIdx? (fun c => c = '1') lower with
    | none => .error .missingSeparator
    | some pos =>
      if pos < 1 then .error .missingSeparator
      else
        let hrp := lower.take pos
        let dataStr := lower.drop (pos + 1)
        if dataStr.length = 0 then .error .emptyData
        else
          match dataStr.mapM charsetIndex with
          | none => .error .invalidChar
          | some data => .ok (hrp, data)


/-- Proof infrastructure (not part of the source): the `w` low-order bits of
`n`, most significant first. -/
def natBits : Nat → Nat → List Bool
  | 0, _ => []
  | w + 1, n => natBits w (n / 2) ++ [decide (n % 2 = 1)]

/-- Proof infrastructure: the concatenated `w`-bit big-endian bit patterns
of a word list. -/
def bitsOf (w : Nat) : List Nat → List Bool
  | [] => []
  | d :: rest => natBits w d ++ bitsOf w rest


/-- Decidable equality for `Except` results (helper instance for concrete
evaluations). -/
instance {e a : Type} [DecidableEq e] [DecidableEq a] : DecidableEq (Except e a) := fun x y =>
  match x, y with
  | .ok v, .ok w =>
    if h : v = w then .isTrue (by rw [h]) else .isFalse (fun hh => h (Except.ok.inj hh))
  | .error v, .error w =>
    if h : v = w then .isTrue (by rw [h]) else .isFalse (fun hh => h (Except.error.inj hh))
  | .ok _, .error _ => .isFalse (fun hh => Except.noConfusion hh)
  | .error _, .ok _ => .isFalse (fun hh => Except.noConfusion hh)

/-! SHA-256, modelling the `sha256` dependency (`@noble/hashes`, FIPS
180-4), executably over byte lists.  All 32-bit words are `Nat` reduced
mod 2³². -/

/-- 32-bit right rotation. -/
def rotr32 (n x : Nat) : Nat :=
  ((x >>> n) ||| (x <<< (32 - n))) % 4294967296

/-- FIPS 180-4 Σ₀. -/
def shaSum0 (x : Nat) : Nat :=
  rotr32 2 x ^^^ rotr32 13 x ^^^ rotr32 22 x

/-- FIPS 180-4 Σ₁. -/
def shaSum1 (x : Nat) : Nat :=
  rotr32 6 x ^^^ rotr32 11 x ^^^ rotr32 25 x

/-- FIPS 180-4 σ₀. -/
def shaLit0 (x : Nat) : Nat :=
  rotr32 7 x ^^^ rotr32 18 x ^^^ (x >>> 3)

/-- FIPS 180-4 σ₁. -/
def shaLit1 (x : Nat) : Nat :=
  rotr32 17 x ^^^ rotr32 19 x ^^^ (x >>> 10)

/-- FIPS 180-4 Ch (complement as xor with the 32-bit all-ones word). -/
def shaCh (x y z : Nat) : Nat :=
  (x &&& y) ^^^ ((x ^^^ 4294967295) &&& z)

/-- FIPS 180-4 Maj. -/
def shaMaj (x y z : Nat) : Nat :=
  (x &&& y) ^^^ (x &&& z) ^^^ (y &&& z)

/-- FIPS 180-4 round constants. -/
def shaK : List Nat :=
  [1116352408, 1899447441, 3049323471, 3921009573, 961987163,
   1508970993, 2453635748, 2870763221, 3624381080, 310598401,
   607225278, 1426881987, 1925078388, 2162078206, 2614888103,
   3248222580, 3835390401, 4022224774, 264347078, 604807628,
   770255983, 1249150122, 1555081692, 1996064986, 2554220882,
   2821834349, 2952996808, 3210313671, 3336571891, 3584528711,
   113926993, 338241895, 666307205, 773529912, 1294757372,
   1396182291, 1695183700, 1986661051, 2177026350, 2456956037,
   2730485921, 2820302411, 3259730800, 3345764771, 3516065817,
   3600352804, 4094571909, 275423344, 430227734, 506948616,
   659060556, 883997877, 958139571, 1322822218, 1537002063,
   1747873779, 1955562222, 2024104815, 2227730452, 2361852424,
   2428436474, 2756734187, 3204031479, 3329325298]

/-- FIPS 180-4 initial hash value. -/
def shaH0 : List Nat :=
  [1779033703, 3144134277, 1013904242,
   2773480762, 1359893119, 2600822924,
   528734635, 1541459225]

/-- Message-schedule extension, on the reversed word list (newest word
first). -/
def shaSchedule : Nat → List Nat → List Nat
  | 0, ws => ws
  | n + 1, ws =>
    shaSchedule n
      (((shaLit1 (ws.getD 1 0) + ws.getD 6 0 + shaLit0 (ws.getD 14 0) + ws.getD 15 0) %
        4294967296) :: ws)

/-- The 64-word message schedule of a 16-word block. -/
def shaExtend (block : List Nat) : List Nat :=
  (shaSchedule 48 block.reverse).reverse

/-- One compression round; the state is the 8-word list `[a,…,h]`. -/
def shaRound (st : List Nat) (kw : Nat × Nat) : List Nat :=
  match st with
  | [a, b, c, d, e, f, g, h] =>
    let t1 := (h + shaSum1 e + shaCh e f g + kw.1 + kw.2) % 4294967296
    let t2 := (shaSum0 a + shaMaj a b c) % 4294967296
    [(t1 + t2) % 4294967296, a, b, c, (d + t1) % 4294967296, e, f, g]
  | other => other

/-- Compression of one 16-word block into the running hash. -/
def shaCompress (h : List Nat) (block : List Nat) : List Nat :=
  let st := (shaK.zip (shaExtend block)).foldl shaRound h
  List.zipWith (fun x y => (x + y) % 4294967296) h st

/-- 64-byte chunking (fuelled). -/
def chunk64 : Nat → List Nat → List (List Nat)
  | 0, _ => []
  | _, [] => []
  | fuel + 1, l => l.take 64 :: chunk64 fuel (l.drop 64)

/-- Big-endian 4-byte words of a byte list. -/
def toWords : List Nat → List Nat
  | b1 :: b2 :: b3 :: b4 :: rest => (((b1 * 256 + b2) * 256 + b3) * 256 + b4) :: toWords rest
  | _ => []

/-- SHA-256 of a byte list (FIPS 180-4 padding, big-endian length). -/
def sha256 (msg : List Nat) : List Nat :=
  let len := msg.length
  let padded := msg ++ 0x80 :: List.replicate ((119 - len % 64) % 64) 0 ++
    natToBytesBE 8 (8 * len)
  let blocks := (chunk64 padded.length padded).map toWords
  (blocks.foldl shaCompress shaH0).foldr (fun w acc => natToBytesBE 4 w ++ acc) []

/-! The signature engine (signature.ts). -/

/-- UTF-8 bytes of "LnLeaf". -/
def lnLeafTag : List Nat := [76, 110, 76, 101, 97, 102]

/-- UTF-8 bytes of "LnNonce". -/
def lnNonceTag : List Nat := [76, 110, 78, 111, 110, 99, 101]

/-- UTF-8 bytes of "LnBranch". -/
def lnBranchTag : List Nat := [76, 110, 66, 114, 97, 110, 99, 104]

/-- signature.ts `taggedHash`: `SHA256(SHA256(tag) ‖ SHA256(tag) ‖ msg)`
(the tag already as its UTF-8 bytes). -/
def taggedHash (tag msg : List Nat) : List Nat :=
  sha256 (sha256 tag ++ sha256 tag ++ msg)

/-- signature.ts `taggedHashRaw`: same construction with a byte-form tag. -/
def taggedHashRaw (tagBytes msg : List Nat) : List Nat :=
  sha256 (sha256 tagBytes ++ sha256 tagBytes ++ msg)

/-- signature.ts `serializeTlv`: BigSize(type) ‖ BigSize(length) ‖ value. -/
def serializeTlv (tlv : TlvEntry) : List Nat :=
  encodeBigSize tlv.type ++ encodeBigSize tlv.value.length ++ tlv.value

/-- signature.ts `compareBytes`: lexicographic, then by length. -/
def compareBytes : List Nat → List Nat → Int
  | [], b => -(b.length : Int)
  | a, [] => (a.length : Int)
  | x :: xs, y :: ys =>
    if x < y then -1 else if x > y then 1 else compareBytes xs ys

/-- signature.ts `branchHash`: `H("LnBranch", lesser ‖ greater)`. -/
def branchHash (a b : List Nat) : List Nat :=
  if compareBytes a b ≤ 0 then taggedHash lnBranchTag (a ++ b)
  else taggedHash lnBranchTag (b ++ a)

/-- One level of signature.ts `merkleReduce`: pair up `(0,1), (2,3), …`,
promoting an unpaired last hash. -/
def pairUpHashes : List (List Nat) → List (List Nat)
  | a :: b :: rest => branchHash a b :: pairUpHashes rest
  | l => l

/-- Fuelled recursion of signature.ts `merkleReduce` (each level at least
halves the list, so `|hashes|` levels suffice; the fuel-exhausted case is
unreachable from `merkleReduce`). -/
def merkleReduceFuel : Nat → List (List Nat) → Except Err (List Nat)
  | _, [] => .error .merkleEmpty
  | _, [a] => .ok a
  | 0, _ => .error .merkleEmpty
  | fuel + 1, hs => merkleReduceFuel fuel (pairUpHashes hs)

/-- signature.ts `merkleReduce`. -/
def merkleReduce (hashes : List (List Nat)) : Except Err (List Nat) :=
  merkleReduceFuel hashes.length hashes

/-- The `[...tlvs].sort((a, b) => a.type < b.type ? -1 : a.type > b.type ? 1 : 0)`
of `computeMerkleRoot` (and the equivalent comparator of encode.ts):
a stable ascending sort by type, modelled by insertion sort (which is
stable, as ECMAScript `Array.prototype.sort` is required to be). -/
def sortTlvs (tlvs : List TlvEntry) : List TlvEntry :=
  List.insertionSort (fun a b => a.type ≤ b.type) tlvs

/-- signature.ts `computeMerkleRoot`: sort, emit a (leaf, nonce) pair per
entry, and reduce. -/
def computeMerkleRoot (tlvs : List TlvEntry) : Except Err (List Nat) :=
  match sortTlvs tlvs with
  | [] => .error .merkleEmpty
  | first :: restSorted =>
    merkleReduce ((first :: restSorted).foldr (fun tlv acc =>
      taggedHash lnLeafTag (serializeTlv tlv) ::
        taggedHashRaw (lnNonceTag ++ serializeTlv first) (encodeBigSize tlv.type) :: acc) [])

/-- types.ts `Bech32mPrefix`: the three enveloped message kinds. -/
inductive MsgKind : Type
  | offer
  | invoiceRequest
  | invoice
deriving DecidableEq, Repr

/-- UTF-8 bytes of "lightning". -/
def lightningBytes : List Nat := [108, 105, 103, 104, 116, 110, 105, 110, 103]

/-- UTF-8 bytes of "signature" (the default `fieldName`). -/
def signatureFieldBytes : List Nat := [115, 105, 103, 110, 97, 116, 117, 114, 101]

/-- signature.ts `messageNameForPrefix` (as UTF-8 bytes). -/
def messageNameForKind : MsgKind → List Nat
  | .offer => [111, 102, 102, 101, 114]
  | .invoiceRequest => [105, 110, 118, 111, 105, 99, 101, 95, 114, 101, 113, 117, 101, 115, 116]
  | .invoice => [105, 110, 118, 111, 105, 99, 101]

/-- signature.ts `signatureTag`: `"lightning" + messagename + fieldname`
(every call site passes the default `fieldName = "signature"`). -/
def signatureTag (kind : MsgKind) (fieldName : List Nat) : List Nat :=
  lightningBytes ++ messageNameForKind kind ++ fieldName

/-- signature.ts `signBolt12`.  The external `schnorr.sign` is the
`schnorrSign` parameter (message hash first, key second, as at the call
site).  `Number(t.type)` cannot change the outcome of the `< 240 || > 1000`
comparisons, so the filter works on the `Nat` type directly. -/
def signBolt12 (schnorrSign : List Nat → List Nat → List Nat)
    (tlvs : List TlvEntry) (privateKey : List Nat) (kind : MsgKind) :
    Except Err (List Nat) := do
  let merkleRoot ← computeMerkleRoot (tlvs.filter fun t => t.type < 240 ∨ t.type > 1000)
  .ok (schnorrSign (taggedHash (signatureTag kind signatureFieldBytes) merkleRoot) privateKey)

/-- signature.ts `verifyBolt12Signature`.  The external `schnorr.verify` is
the `schnorrVerify` parameter (signature, message hash, x-only key). -/
def verifyBolt12Signature (schnorrVerify : List Nat → List Nat → List Nat → Bool)
    (tlvs : List TlvEntry) (signature publicKey : List Nat) (kind : MsgKind) :
    Except Err Bool :=
  if signature.length ≠ 64 then .error .invalidSignatureLength
  else if publicKey.length = 33 then do
    let merkleRoot ← computeMerkleRoot (tlvs.filter fun t => t.type < 240 ∨ t.type > 1000)
    .ok (schnorrVerify signature (taggedHash (signatureTag kind signatureFieldBytes) merkleRoot)
      (publicKey.drop 1))
  else if publicKey.length = 32 then do
    let merkleRoot ← computeMerkleRoot (tlvs.filter fun t => t.type < 240 ∨ t.type > 1000)
    .ok (schnorrVerify signature (taggedHash (signatureTag kind signatureFieldBytes) merkleRoot)
      publicKey)
  else .error .invalidPublicKeyLength


/-- types.ts `OnionMessageHop`. -/
structure BlindedHop : Type where
  nodeId : List Nat
  tlvPayload : List Nat
deriving DecidableEq, Repr

/-- types.ts `BlindedPath`. -/
structure BlindedPath : Type where
  blindingPubkey : List Nat
  hops : List BlindedHop
deriving DecidableEq, Repr

/-- types.ts `BlindedPayInfo`. -/
structure BlindedPayInfo : Type where
  feeBaseMsat : Nat
  feeProportionalMillionths : Nat
  cltvExpiryDelta : Nat
  htlcMinimumMsat : Nat
  htlcMaximumMsat : Nat
  features : List Nat
deriving DecidableEq, Repr

/-- types.ts `FallbackAddress`. -/
structure FallbackAddress : Type where
  version : Nat
  address : List Nat
deriving DecidableEq, Repr

/-- One hop of encode.ts `encodeBlindedPaths`: node id, u16 payload length,
payload. -/
def encodeHop (hop : BlindedHop) : Except Err (List Nat) := do
  let lenBytes ← numberToBytesBE hop.tlvPayload.length 2
  .ok (hop.nodeId ++ lenBytes ++ hop.tlvPayload)

/-- The hops of one blinded path, concatenated. -/
def encodeHops : List BlindedHop → Except Err (List Nat)
  | [] => .ok []
  | hop :: rest => do
    let hb ← encodeHop hop
    let rb ← encodeHops rest
    .ok (hb ++ rb)

/-- encode.ts `encodeBlindedPaths`.  `new Uint8Array([path.hops.length])`
stores the hop count modulo 256. -/
def encodeBlindedPaths : List BlindedPath → Except Err (List Nat)
  | [] => .ok []
  | path :: rest => do
    let hopBytes ← encodeHops path.hops
    let restBytes ← encodeBlindedPaths rest
    .ok (path.blindingPubkey ++ path.hops.length % 256 :: (hopBytes ++ restBytes))

/-- encode.ts `encodeBlindedPayInfoArray`, one entry (pushing an empty
features array is the same as not pushing it). -/
def encodeBlindedPayInfo (info : BlindedPayInfo) : Except Err (List Nat) := do
  let b1 ← numberToBytesBE info.feeBaseMsat 4
  let b2 ← numberToBytesBE info.feeProportionalMillionths 4
  let b3 ← numberToBytesBE info.cltvExpiryDelta 2
  let b4 ← numberToBytesBE info.htlcMinimumMsat 8
  let b5 ← numberToBytesBE info.htlcMaximumMsat 8
  let b6 ← numberToBytesBE info.features.length 2
  .ok (b1 ++ b2 ++ b3 ++ b4 ++ b5 ++ b6 ++ info.features)

/-- encode.ts `encodeBlindedPayInfoArray`. -/
def encodeBlindedPayInfoArray : List BlindedPayInfo → Except Err (List Nat)
  | [] => .ok []
  | info :: rest => do
    let ib ← encodeBlindedPayInfo info
    let rb ← encodeBlindedPayInfoArray rest
    .ok (ib ++ rb)

/-- encode.ts `encodeFallbackAddresses` (`new Uint8Array([fb.version])`
stores the version modulo 256). -/
def encodeFallbackAddresses : List FallbackAddress → Except Err (List Nat)
  | [] => .ok []
  | fb :: rest => do
    let lenBytes ← numberToBytesBE fb.address.length 2
    let rb ← encodeFallbackAddresses rest
    .ok (fb.version % 256 :: (lenBytes ++ fb.address ++ rb))

/-- The textual prefixes of types.ts `Bech32mPrefix`. -/
def kindHrpChars : MsgKind → List Char
  | .offer => ['l', 'n', 'o']
  | .invoiceRequest => ['l', 'n', 'r']
  | .invoice => ['l', 'n', 'i']

/-- encode.ts `encodeBolt12`: TLV stream → 5-bit regroup (padded) →
checksum-free bech32 text. -/
def encodeBolt12 (hrp : MsgKind) (tlvs : List TlvEntry) : Except Err (List Char) := do
  let fiveBitWords ← convertBits (encodeTlvStream tlvs) 8 5 true
  .ok (bolt12Encode (kindHrpChars hrp) fiveBitWords)

/-- encode.ts `OfferEncodeOptions`.  JavaScript strings are carried as
their UTF-8 bytes. -/
structure OfferEncodeOptions : Type where
  issuerId : Option (List Nat)
  description : Option (List Nat)
  amountMsat : Option Nat
  currency : Option (List Nat)
  chains : Option (List (List Nat))
  metadata : Option (List Nat)
  absoluteExpiry : Option Nat
  paths : Option (List BlindedPath)
  issuer : Option (List Nat)
  quantityMax : Option Nat
  features : Option (List Nat)
deriving DecidableEq, Repr

/-- JavaScript truthiness of an optional string: defined and non-empty. -/
def truthyStr (o : Option (List Nat)) : Bool :=
  match o with
  | some s => decide (s ≠ [])
  | none => false

/-- JavaScript truthiness of an optional bigint: defined and non-zero
(`0n` is falsy). -/
def truthyNat (o : Option Nat) : Bool :=
  match o with
  | some n => decide (n ≠ 0)
  | none => false

/-- Concatenation of the chain hashes of an offer (`concatBytes(...chains)`). -/
def concatChains (cs : List (List Nat)) : List Nat :=
  cs.foldr (fun a acc => a ++ acc) []

/-- An optional tu64-valued TLV (`if (x !== undefined) push(tlv(ty, encodeTu64(x)))`). -/
def optTu64Tlv (ty : Nat) (o : Option Nat) : Except Err (List TlvEntry) :=
  match o with
  | some a => (encodeTu64 a).map (fun v => [⟨ty, v⟩])
  | none => .ok []

/-- The optional paths TLV (`if (options.paths) push(tlv(16, encodeBlindedPaths(...)))`). -/
def optPathsTlv (o : Option (List BlindedPath)) : Except Err (List TlvEntry) :=
  match o with
  | some ps => (encodeBlindedPaths ps).map (fun v => [⟨16, v⟩])
  | none => .ok []

/-- The TLV-building part of encode.ts `encodeOffer` (after its three
validation throws).  Conditions mirror the JavaScript guards:
`Uint8Array`/array fields test definedness, string fields test truthiness
(empty string is falsy), bigint fields test `!== undefined`.  The four
fallible encodings run in source push order; the infallible pushes are
assembled in the same positions in the final list. -/
def offerTlvList (o : OfferEncodeOptions) : Except Err (List TlvEntry) := do
  let t8 ← optTu64Tlv 8 o.amountMsat
  let t14 ← optTu64Tlv 14 o.absoluteExpiry
  let t16 ← optPathsTlv o.paths
  let t20 ← optTu64Tlv 20 o.quantityMax
  .ok ((match o.chains with | some cs => [(⟨2, concatChains cs⟩ : TlvEntry)] | none => []) ++
    (match o.metadata with | some m => [(⟨4, m⟩ : TlvEntry)] | none => []) ++
    (if truthyStr o.currency then [(⟨6, o.currency.getD []⟩ : TlvEntry)] else []) ++
    t8 ++
    (if truthyStr o.description then [(⟨10, o.description.getD []⟩ : TlvEntry)] else []) ++
    (match o.features with | some f => [(⟨12, f⟩ : TlvEntry)] | none => []) ++
    t14 ++ t16 ++
    (if truthyStr o.issuer then [(⟨18, o.issuer.getD []⟩ : TlvEntry)] else []) ++
    t20 ++
    (match o.issuerId with | some i => [(⟨22, i⟩ : TlvEntry)] | none => []))

/-- The validation prologue plus TLV building of encode.ts `encodeOffer`. -/
def buildOfferTlvs (o : OfferEncodeOptions) : Except Err (List TlvEntry) :=
  if o.issuerId.isNone ∧ (o.paths.isNone ∨ o.paths = some []) then
    .error .noIssuerIdOrPaths
  else if truthyNat o.amountMsat ∧ ¬ truthyStr o.description then
    .error .amountWithoutDescription
  else if truthyStr o.currency ∧ ¬ truthyNat o.amountMsat then
    .error .currencyWithoutAmount
  else offerTlvList o

/-- encode.ts `encodeOffer`: validate, build, sort by type, emit. -/
def encodeOffer (options : OfferEncodeOptions) : Except Err (List Char) := do
  let tlvs ← buildOfferTlvs options
  encodeBolt12 .offer (sortTlvs tlvs)

/-- encode.ts `InvoiceErrorEncodeOptions` (the error string as UTF-8
bytes). -/
structure InvoiceErrorEncodeOptions : Type where
  error : List Nat
  erroneousField : Option Nat
  suggestedValue : Option (List Nat)
deriving DecidableEq, Repr

/-- encode.ts `encodeInvoiceError`: raw TLV stream over types 1, 3, 5 with
the two validation throws of the source (an absent/empty error message, and
a suggested value without an erroneous field). -/
def encodeInvoiceError (options : InvoiceErrorEncodeOptions) : Except Err (List Nat) :=
  if options.error = [] then .error .missingErrorMessage
  else if options.suggestedValue.isSome ∧ options.erroneousField.isNone then
    .error .suggestedValueWithoutErroneousField
  else do
    let t1 ← match options.erroneousField with
      | some ef => do
        let v ← encodeTu64 ef
        pure [(⟨1, v⟩ : TlvEntry)]
      | none => pure []
    let t3 : List TlvEntry := match options.suggestedValue with
      | some sv => [⟨3, sv⟩]
      | none => []
    .ok (encodeTlvStream (sortTlvs (t1 ++ t3 ++ [⟨5, options.error⟩])))

/-- types.ts `InvoiceError`. -/
structure InvoiceError : Type where
  erroneousField : Option Nat
  suggestedValue : Option (List Nat)
  error : List Nat
  tlvs : List TlvEntry
deriving DecidableEq, Repr

/-- The per-entry switch of decode.ts `decodeInvoiceError`. -/
def invoiceErrorStep (acc : InvoiceError) (tlv : TlvEntry) : Except Err InvoiceError :=
  match tlv.type with
  | 1 => do
    let v ← decodeTu64 tlv.value
    .ok ⟨some v, acc.suggestedValue, acc.error, acc.tlvs⟩
  | 3 => .ok ⟨acc.erroneousField, some tlv.value, acc.error, acc.tlvs⟩
  | 5 => .ok ⟨acc.erroneousField, acc.suggestedValue, tlv.value, acc.tlvs⟩
  | _ => .ok acc

/-- decode.ts `decodeInvoiceError` after its `decodeTlvStream` call:
populate the fields, then require a non-empty error message and forbid a
suggested value without an erroneous field. -/
def invoiceErrorFromTlvs (tlvEntries : List TlvEntry) : Except Err InvoiceError := do
  let folded ← tlvEntries.foldlM invoiceErrorStep ⟨none, none, [], tlvEntries⟩
  if folded.error = [] then .error .missingErrorMessage
  else if folded.suggestedValue.isSome ∧ folded.erroneousField.isNone then
    .error .suggestedValueWithoutErroneousField
  else .ok folded

/-- decode.ts `decodeInvoiceError`. -/
def decodeInvoiceError (bytes : List Nat) : Except Err InvoiceError := do
  let tlvEntries ← decodeTlvStream bytes
  invoiceErrorFromTlvs tlvEntries


/-- 32-byte chunking of decode.ts `parseCommonTlvs` / offer chains
(`subarray(i, i + 32)`; a short final chunk is kept, matching the
source). -/
def chunk32 : Nat → List Nat → List (List Nat)
  | 0, _ => []
  | _, [] => []
  | fuel + 1, l => l.take 32 :: chunk32 fuel (l.drop 32)

/-- The hop-reading loop of decode.ts `decodeBlindedPaths`: `numHops`
times, a 33-byte node id, a u16 big-endian payload length
(`(bytes[o] << 8) | bytes[o+1]`), and the payload. -/
def decodeHopsLoop : Nat → List Nat → Except Err (List BlindedHop × List Nat)
  | 0, rest => .ok ([], rest)
  | n + 1, rest =>
    if rest.length < 33 then .error .bpMissingNodeId
    else
      let nodeId := rest.take 33
      let r1 := rest.drop 33
      if r1.length < 2 then .error .bpMissingDataLen
      else
        let len := r1.getD 0 0 * 256 + r1.getD 1 0
        let r2 := r1.drop 2
        if r2.length < len then .error .bpTruncatedData
        else do
          let (hops, rest2) ← decodeHopsLoop n (r2.drop len)
          .ok (⟨nodeId, r2.take len⟩ :: hops, rest2)

/-- The path loop of decode.ts `decodeBlindedPaths` (fuelled; each path
consumes at least 34 bytes). -/
def decodeBlindedPathsLoop : Nat → List Nat → Except Err (List BlindedPath)
  | _, [] => .ok []
  | 0, _ :: _ => .ok []
  | fuel + 1, bytes =>
    if bytes.length < 33 then .error .bpMissingBlinding
    else
      let blinding := bytes.take 33
      let r1 := bytes.drop 33
      if r1 = [] then .error .bpMissingNumHops
      else do
        let (hops, rest) ← decodeHopsLoop (r1.getD 0 0) (r1.drop 1)
        let paths ← decodeBlindedPathsLoop fuel rest
        .ok (⟨blinding, hops⟩ :: paths)

/-- decode.ts `decodeBlindedPaths`. -/
def decodeBlindedPaths (bytes : List Nat) : Except Err (List BlindedPath) :=
  decodeBlindedPathsLoop bytes.length bytes

/-- A byte allowed by the BIP-353 character class `[0-9a-zA-Z\-_.]`.  On
UTF-8-decoded strings the regex accepts exactly the non-empty all-ASCII
strings over this class: every byte ≥ 0x80 decodes to a character outside
it. -/
def bip353AllowedByte (b : Nat) : Bool :=
  (48 ≤ b ∧ b ≤ 57) ∨ (97 ≤ b ∧ b ≤ 122) ∨ (65 ≤ b ∧ b ≤ 90) ∨ b = 45 ∨ b = 95 ∨ b = 46

/-- The `^[0-9a-zA-Z\-_.]+$` test of decode.ts `parseBip353Name`. -/
def validBip353 (bs : List Nat) : Bool :=
  decide (bs ≠ []) && bs.all bip353AllowedByte

/-- decode.ts `parseBip353Name`: u8 name length, name, u8 domain length,
domain, then the character-class validation of both. -/
def parseBip353Name (bytes : List Nat) : Except Err (List Nat × List Nat) :=
  if bytes = [] then .error .bipMissingNameLen
  else
    let nameLen := bytes.getD 0 0
    let r1 := bytes.drop 1
    if r1.length < nameLen then .error .bipTruncatedName
    else
      let name := r1.take nameLen
      let r2 := r1.drop nameLen
      if r2 = [] then .error .bipMissingDomainLen
      else
        let domainLen := r2.getD 0 0
        let r3 := r2.drop 1
        if r3.length < domainLen then .error .bipTruncatedDomain
        else if ¬ validBip353 name then .error .bipInvalidName
        else if ¬ validBip353 (r3.take domainLen) then .error .bipInvalidDomain
        else .ok (name, r3.take domainLen)

/-- decode.ts `parseBlindedPayInfoArray`, one loop level (fuelled; each
entry consumes at least 28 bytes).  The u32/u16 reads are big-endian byte
arithmetic as in `bytesToNumberBE`. -/
def parseBlindedPayInfoLoop : Nat → List Nat → Except Err (List BlindedPayInfo)
  | _, [] => .ok []
  | 0, _ :: _ => .ok []
  | fuel + 1, bytes =>
    if bytes.length < 28 then .error .payinfoTruncated
    else
      let flen := bytesToNatBE ((bytes.drop 26).take 2)
      let r := bytes.drop 28
      if r.length < flen then .error .payinfoTruncatedFeatures
      else do
        let rest ← parseBlindedPayInfoLoop fuel (r.drop flen)
        .ok (⟨bytesToNatBE (bytes.take 4), bytesToNatBE ((bytes.drop 4).take 4),
          bytesToNatBE ((bytes.drop 8).take 2), bytesToNatBE ((bytes.drop 10).take 8),
          bytesToNatBE ((bytes.drop 18).take 8), r.take flen⟩ :: rest)

/-- decode.ts `parseBlindedPayInfoArray`. -/
def parseBlindedPayInfoArray (bytes : List Nat) : Except Err (List BlindedPayInfo) :=
  parseBlindedPayInfoLoop bytes.length bytes

/-- decode.ts `parseFallbackAddresses` (fuelled; each entry consumes at
least 3 bytes). -/
def parseFallbackAddressesLoop : Nat → List Nat → Except Err (List FallbackAddress)
  | _, [] => .ok []
  | 0, _ :: _ => .ok []
  | fuel + 1, bytes =>
    if bytes.length < 3 then .error .fallbackTruncated
    else
      let len := bytesToNatBE ((bytes.drop 1).take 2)
      let r := bytes.drop 3
      if r.length < len then .error .fallbackTruncatedAddress
      else do
        let rest ← parseFallbackAddressesLoop fuel (r.drop len)
        .ok (⟨bytes.getD 0 0, r.take len⟩ :: rest)

/-- decode.ts `parseFallbackAddresses`. -/
def parseFallbackAddresses (bytes : List Nat) : Except Err (List FallbackAddress) :=
  parseFallbackAddressesLoop bytes.length bytes

/-- The fields set by decode.ts `parseCommonTlvs` (`Partial<BaseBolt12>`). -/
structure CommonFields : Type where
  chainId : Option (List Nat)
  amountMsat : Option Nat
  description : Option (List Nat)
  features : Option (List Nat)
  quantityMax : Option Nat
  signature : Option (List Nat)
deriving DecidableEq, Repr

/-- One entry of the decode.ts `parseCommonTlvs` loop. -/
def commonStep (acc : CommonFields) (tlv : TlvEntry) : Except Err CommonFields :=
  match tlv.type with
  | 2 => .ok { acc with chainId := (chunk32 tlv.value.length tlv.value).head? }
  | 8 => (decodeTu64 tlv.value).map (fun v => { acc with amountMsat := some v })
  | 10 => .ok { acc with description := some tlv.value }
  | 12 => .ok { acc with features := some tlv.value }
  | 20 => (decodeTu64 tlv.value).map (fun v => { acc with quantityMax := some v })
  | 240 => .ok { acc with signature := some tlv.value }
  | _ => .ok acc

/-- decode.ts `parseCommonTlvs`. -/
def parseCommonTlvs (entries : List TlvEntry) : Except Err CommonFields :=
  entries.foldlM commonStep ⟨none, none, none, none, none, none⟩

/-- decode.ts `DecodedOffer` (strings as UTF-8 bytes; the `prefix`
discriminant lives in the `DecodedBolt12` sum). -/
structure DecodedOffer : Type where
  tlvs : List TlvEntry
  chainId : Option (List Nat)
  description : Option (List Nat)
  amountMsat : Option Nat
  quantityMax : Option Nat
  features : Option (List Nat)
  signature : Option (List Nat)
  chains : Option (List (List Nat))
  metadata : Option (List Nat)
  currency : Option (List Nat)
  absoluteExpiry : Option Nat
  paths : Option (List BlindedPath)
  issuer : Option (List Nat)
  issuerId : Option (List Nat)
deriving DecidableEq, Repr

/-- One entry of the offer-specific loop of decode.ts `decodeOffer`. -/
def offerStep (acc : DecodedOffer) (tlv : TlvEntry) : Except Err DecodedOffer :=
  match tlv.type with
  | 2 => .ok { acc with chains := some (acc.chains.getD [] ++ chunk32 tlv.value.length tlv.value) }
  | 4 => .ok { acc with metadata := some tlv.value }
  | 6 => .ok { acc with currency := some tlv.value }
  | 14 => (decodeTu64 tlv.value).map (fun v => { acc with absoluteExpiry := some v })
  | 16 => (decodeBlindedPaths tlv.value).map (fun v => { acc with paths := some v })
  | 18 => .ok { acc with issuer := some tlv.value }
  | 22 => .ok { acc with issuerId := some tlv.value }
  | _ => .ok acc

/-- decode.ts `decodeOffer`: common fields, offer fields, then the two
truthiness validations of the source. -/
def decodeOffer (tlvEntries : List TlvEntry) : Except Err DecodedOffer := do
  let c ← parseCommonTlvs tlvEntries
  let o ← tlvEntries.foldlM offerStep
    ⟨tlvEntries, c.chainId, c.description, c.amountMsat, c.quantityMax, c.features,
      c.signature, none, none, none, none, none, none, none⟩
  if truthyNat o.amountMsat ∧ ¬ truthyStr o.description then .error .amountWithoutDescription
  else if truthyStr o.currency ∧ ¬ truthyNat o.amountMsat then .error .currencyWithoutAmount
  else .ok o

/-- decode.ts `DecodedInvoiceRequest` (strings as UTF-8 bytes). -/
structure DecodedInvoiceRequest : Type where
  tlvs : List TlvEntry
  invreqMetadata : List Nat
  payerId : List Nat
  signature : List Nat
  chainId : Option (List Nat)
  amountMsat : Option Nat
  description : Option (List Nat)
  features : Option (List Nat)
  quantityMax : Option Nat
  chains : Option (List (List Nat))
  quantity : Option Nat
  payerNote : Option (List Nat)
  invreqPaths : Option (List BlindedPath)
  invreqBip353Name : Option (List Nat × List Nat)
  offerMetadata : Option (List Nat)
  currency : Option (List Nat)
  offerAmountMsat : Option Nat
  offerDescription : Option (List Nat)
  offerFeatures : Option (List Nat)
  offerAbsoluteExpiry : Option Nat
  offerPaths : Option (List BlindedPath)
  offerIssuer : Option (List Nat)
  offerQuantityMax : Option Nat
  offerIssuerId : Option (List Nat)
deriving DecidableEq, Repr

/-- One entry of the invoice-request loop of decode.ts
`decodeInvoiceRequest`. -/
def irStep (acc : DecodedInvoiceRequest) (tlv : TlvEntry) : Except Err DecodedInvoiceRequest :=
  match tlv.type with
  | 0 => .ok { acc with invreqMetadata := tlv.value }
  | 80 => .ok { acc with chains := some (acc.chains.getD [] ++ [tlv.value]) }
  | 82 => (decodeTu64 tlv.value).map (fun v => { acc with amountMsat := some v })
  | 84 => .ok { acc with features := some tlv.value }
  | 86 => (decodeTu64 tlv.value).map (fun v => { acc with quantity := some v })
  | 88 => .ok { acc with payerId := tlv.value }
  | 89 => .ok { acc with payerNote := some tlv.value }
  | 90 => (decodeBlindedPaths tlv.value).map (fun v => { acc with invreqPaths := some v })
  | 91 => (parseBip353Name tlv.value).map (fun v => { acc with invreqBip353Name := some v })
  | 240 => .ok { acc with signature := tlv.value }
  | 4 => .ok { acc with offerMetadata := some tlv.value }
  | 6 => .ok { acc with currency := some tlv.value }
  | 8 => (decodeTu64 tlv.value).map (fun v => { acc with offerAmountMsat := some v })
  | 10 => .ok { acc with offerDescription := some tlv.value }
  | 12 => .ok { acc with offerFeatures := some tlv.value }
  | 14 => (decodeTu64 tlv.value).map (fun v => { acc with offerAbsoluteExpiry := some v })
  | 16 => (decodeBlindedPaths tlv.value).map (fun v => { acc with offerPaths := some v })
  | 18 => .ok { acc with offerIssuer := some tlv.value }
  | 20 => (decodeTu64 tlv.value).map (fun v => { acc with offerQuantityMax := some v })
  | 22 => .ok { acc with offerIssuerId := some tlv.value }
  | _ => .ok acc

/-- decode.ts `decodeInvoiceRequest`: common fields, invreq fields, then
the three required-field validations. -/
def decodeInvoiceRequest (tlvEntries : List TlvEntry) : Except Err DecodedInvoiceRequest := do
  let c ← parseCommonTlvs tlvEntries
  let r ← tlvEntries.foldlM irStep
    ⟨tlvEntries, [], [], c.signature.getD [], c.chainId, c.amountMsat, c.description,
      c.features, c.quantityMax, none, none, none, none, none, none, none, none, none,
      none, none, none, none, none, none⟩
  if r.invreqMetadata = [] then .error .missingInvreqMetadata
  else if r.payerId.length ≠ 33 then .error .invalidPayerId
  else if r.signature.length ≠ 64 then .error .invalidSignatureField
  else .ok r

/-- decode.ts `DecodedInvoice` (strings as UTF-8 bytes). -/
structure DecodedInvoice : Type where
  tlvs : List TlvEntry
  invoicePaths : List BlindedPath
  blindedPayInfo : List BlindedPayInfo
  createdAt : Nat
  relativeExpiry : Option Nat
  paymentHash : List Nat
  nodeId : List Nat
  signature : List Nat
  fallbacks : Option (List FallbackAddress)
  chainId : Option (List Nat)
  amountMsat : Option Nat
  description : Option (List Nat)
  features : Option (List Nat)
  quantityMax : Option Nat
  invreqMetadata : Option (List Nat)
  invreqChain : Option (List Nat)
  invreqAmountMsat : Option Nat
  invreqFeatures : Option (List Nat)
  invreqQuantity : Option Nat
  invreqPayerId : Option (List Nat)
  invreqPayerNote : Option (List Nat)
  invreqPaths : Option (List BlindedPath)
  invreqBip353Name : Option (List Nat × List Nat)
  offerChains : Option (List (List Nat))
  offerMetadata : Option (List Nat)
  offerCurrency : Option (List Nat)
  offerAmountMsat : Option Nat
  offerDescription : Option (List Nat)
  offerFeatures : Option (List Nat)
  offerAbsoluteExpiry : Option Nat
  offerPaths : Option (List BlindedPath)
  offerIssuer : Option (List Nat)
  offerQuantityMax : Option Nat
  offerIssuerId : Option (List Nat)
deriving DecidableEq, Repr

/-- One entry of the invoice loop of decode.ts `decodeInvoice`. -/
def invoiceStep (acc : DecodedInvoice) (tlv : TlvEntry) : Except Err DecodedInvoice :=
  match tlv.type with
  | 160 => (decodeBlindedPaths tlv.value).map (fun v => { acc with invoicePaths := v })
  | 162 => (parseBlindedPayInfoArray tlv.value).map (fun v => { acc with blindedPayInfo := v })
  | 164 => (decodeTu64 tlv.value).map (fun v => { acc with createdAt := v })
  | 166 => (decodeTu64 tlv.value).map (fun v => { acc with relativeExpiry := some v })
  | 168 => .ok { acc with paymentHash := tlv.value }
  | 170 => (decodeTu64 tlv.value).map (fun v => { acc with amountMsat := some v })
  | 172 => (parseFallbackAddresses tlv.value).map (fun v => { acc with fallbacks := some v })
  | 174 => .ok { acc with features := some tlv.value }
  | 176 => .ok { acc with nodeId := tlv.value }
  | 0 => .ok { acc with invreqMetadata := some tlv.value }
  | 80 => .ok { acc with invreqChain := some tlv.value }
  | 82 => (decodeTu64 tlv.value).map (fun v => { acc with invreqAmountMsat := some v })
  | 84 => .ok { acc with invreqFeatures := some tlv.value }
  | 86 => (decodeTu64 tlv.value).map (fun v => { acc with invreqQuantity := some v })
  | 88 => .ok { acc with invreqPayerId := some tlv.value }
  | 89 => .ok { acc with invreqPayerNote := some tlv.value }
  | 90 => (decodeBlindedPaths tlv.value).map (fun v => { acc with invreqPaths := some v })
  | 91 => (parseBip353Name tlv.value).map (fun v => { acc with invreqBip353Name := some v })
  | 2 => .ok { acc with offerChains := some (acc.offerChains.getD [] ++ chunk32 tlv.value.length tlv.value) }
  | 4 => .ok { acc with offerMetadata := some tlv.value }
  | 6 => .ok { acc with offerCurrency := some tlv.value }
  | 8 => (decodeTu64 tlv.value).map (fun v => { acc with offerAmountMsat := some v })
  | 10 => .ok { acc with offerDescription := some tlv.value }
  | 12 => .ok { acc with offerFeatures := some tlv.value }
  | 14 => (decodeTu64 tlv.value).map (fun v => { acc with offerAbsoluteExpiry := some v })
  | 16 => (decodeBlindedPaths tlv.value).map (fun v => { acc with offerPaths := some v })
  | 18 => .ok { acc with offerIssuer := some tlv.value }
  | 20 => (decodeTu64 tlv.value).map (fun v => { acc with offerQuantityMax := some v })
  | 22 => .ok { acc with offerIssuerId := some tlv.value }
  | _ => .ok acc

/-- decode.ts `decodeInvoice`: common fields, invoice fields, then the
seven required-field validations (note `!invoice.createdAt` is a
truthiness test, so a present `created_at` of 0 still fails). -/
def decodeInvoice (tlvEntries : List TlvEntry) : Except Err DecodedInvoice := do
  let c ← parseCommonTlvs tlvEntries
  let inv ← tlvEntries.foldlM invoiceStep
    ⟨tlvEntries, [], [], 0, none, [], [], c.signature.getD [], none, c.chainId,
      c.amountMsat, c.description, c.features, c.quantityMax, none, none, none, none,
      none, none, none, none, none, none, none, none, none, none, none, none, none,
      none, none, none⟩
  if inv.createdAt = 0 then .error .missingCreatedAt
  else if inv.paymentHash.length ≠ 32 then .error .invalidPaymentHash
  else if inv.nodeId.length ≠ 33 then .error .invalidNodeId
  else if inv.signature.length ≠ 64 then .error .invalidSignatureField
  else if inv.invoicePaths = [] then .error .missingInvoicePaths
  else if inv.blindedPayInfo = [] then .error .missingBlindedPay
  else if inv.invoicePaths.length ≠ inv.blindedPayInfo.length then .error .pathsPayinfoMismatch
  else .ok inv

/-- The sum of the three decodable message kinds (`AnyDecodedBolt12`). -/
inductive DecodedBolt12 : Type
  | offer (o : DecodedOffer)
  | invoiceRequest (r : DecodedInvoiceRequest)
  | invoice (i : DecodedInvoice)
deriving DecidableEq, Repr

/-- decode.ts `decodeBolt12`: envelope decode, HRP dispatch, 8-bit
regrouping with `pad = false`, TLV stream decode, then the per-kind
decoder.  (The source re-wraps envelope errors in a new message; the error
kind is preserved here.) -/
def decodeBolt12 (s : List Char) : Except Err DecodedBolt12 := do
  let pr ← bolt12Decode s
  let kind ← (if pr.1 = ['l', 'n', 'o'] then .ok MsgKind.offer
    else if pr.1 = ['l', 'n', 'r'] then .ok MsgKind.invoiceRequest
    else if pr.1 = ['l', 'n', 'i'] then .ok MsgKind.invoice
    else .error Err.unknownHrp : Except Err MsgKind)
  let tlvBytes ← convertBits pr.2 5 8 false
  let tlvEntries ← decodeTlvStream tlvBytes
  match kind with
  | .offer => (decodeOffer tlvEntries).map .offer
  | .invoiceRequest => (decodeInvoiceRequest tlvEntries).map .invoiceRequest
  | .invoice => (decodeInvoice tlvEntries).map .invoice

end Bolt12

/-! ## Theorems -/

namespace Bolt12



/-- `v % (k·m)` split into the low-`k` part and the next `m` base-`k`
digits. -/
theorem mod_mul_split (v k m : Nat) : v % (k * m) = k * (v / k % m) + v % k := by
  rcases Nat.eq_zero_or_pos k with hk | hk
  · subst hk; simp
  · have h1 : v / k % m = v % (k * m) / k := (Nat.mod_mul_right_div_self v k m).symm
    have h2 : v % (k * m) % k = v % k :=
      Nat.mod_mod_of_dvd v (Dvd.intro m rfl)
    rw [h1, ← h2]
    exact (Nat.div_add_mod (v % (k * m)) k).symm

/-- `natToBytesBE` always produces exactly `len` bytes. -/
theorem natToBytesBE_length (n v : Nat) : (natToBytesBE n v).length = n := by
  induction n generalizing v with
  | zero => rfl
  | succ n ih => simp [natToBytesBE, ih]

/-- Generalised big-endian read-back of `natToBytesBE`. -/
theorem foldlBE_natToBytesBE (n : Nat) : ∀ v a : Nat,
    (natToBytesBE n v).foldl (fun x b => x * 256 + b) a = a * 256 ^ n + v % 256 ^ n := by
  induction n with
  | zero => intro v a; simp [natToBytesBE, Nat.mod_one]
  | succ n ih =>
    intro v a
    have hsplit : v % 256 ^ (n + 1) = 256 * (v / 256 % 256 ^ n) + v % 256 := by
      have := mod_mul_split v 256 (256 ^ n)
      rwa [← pow_succ'] at this
    simp only [natToBytesBE, List.foldl_append, ih (v / 256) a, List.foldl_cons,
      List.foldl_nil, hsplit]
    ring

/-- Reading back the big-endian bytes of `v` recovers `v` modulo `256^n`. -/
theorem bytesToNatBE_natToBytesBE (n v : Nat) :
    bytesToNatBE (natToBytesBE n v) = v % 256 ^ n := by
  simpa using foldlBE_natToBytesBE n v 0

/-- Decoding the marker-form encoding of `v` from offset 0. -/
theorem decodeBigSize_marker (marker n v : Nat) (hv : v < 256 ^ n) :
    bytesToNatBE (((marker :: natToBytesBE n v).drop 1).take n) = v := by
  have hlen : (natToBytesBE n v).length = n := natToBytesBE_length n v
  rw [List.drop_one, List.tail_cons, List.take_of_length_le (le_of_eq hlen),
    bytesToNatBE_natToBytesBE, Nat.mod_eq_of_lt hv]

/-- C5 (round-trip component): decoding an encoding returns the value and
the offset one past the encoding. -/
theorem bigsize_decode_encode (v : Nat) (hv : v < 18446744073709551616) :
    decodeBigSize (encodeBigSize v) 0 = .ok (v, (encodeBigSize v).length) := by
  by_cases h1 : v <= 0xfc
  · simp [encodeBigSize, decodeBigSize, h1]
  · by_cases h2 : v <= 0xffff
    · have hv2 : v < 256 ^ 2 := by norm_num; omega
      have hval := decodeBigSize_marker 0xfd 2 v hv2
      have hlen : (natToBytesBE 2 v).length = 2 := natToBytesBE_length 2 v
      simp only [encodeBigSize, h1, h2, if_true, if_false]
      simp only [decodeBigSize, List.length_cons, hlen, hval]
      norm_num
      omega
    · by_cases h3 : v <= 0xffffffff
      · have hv2 : v < 256 ^ 4 := by norm_num; omega
        have hval := decodeBigSize_marker 0xfe 4 v hv2
        have hlen : (natToBytesBE 4 v).length = 4 := natToBytesBE_length 4 v
        simp only [encodeBigSize, h1, h2, h3, if_true, if_false]
        simp only [decodeBigSize, List.length_cons, hlen, hval]
        norm_num
        omega
      · have hv2 : v < 256 ^ 8 := by norm_num; omega
        have hval := decodeBigSize_marker 0xff 8 v hv2
        have hlen : (natToBytesBE 8 v).length = 8 := natToBytesBE_length 8 v
        simp only [encodeBigSize, h1, h2, h3, if_true, if_false]
        simp only [decodeBigSize, List.length_cons, hlen, hval]
        norm_num
        omega

/-- C5 (shortest-form component): the encoding length matches the four-form
table, i.e. the shortest admissible form is always chosen. -/
theorem bigsize_encode_length (v : Nat) :
    (encodeBigSize v).length =
      if v <= 0xfc then 1 else if v <= 0xffff then 3
      else if v <= 0xffffffff then 5 else 9 := by
  unfold encodeBigSize
  split
  · rfl
  · split
    · simp [natToBytesBE_length]
    · split
      · simp [natToBytesBE_length]
      · simp [natToBytesBE_length]

/-- C5 (non-minimal component): a 0xFD marker whose 2-byte payload is below
0xFD is rejected as non-minimal. -/
theorem bigsize_nonminimal_fd (b1 b2 : Nat) (rest : List Nat)
    (h : b1 * 256 + b2 < 0xfd) :
    decodeBigSize (0xfd :: b1 :: b2 :: rest) 0 = .error .nonMinimal := by
  have hb : bytesToNatBE [b1, b2] = b1 * 256 + b2 := by
    simp [bytesToNatBE]
  simp [decodeBigSize, hb, h]

/-- C5 (non-minimal component): a 0xFE marker whose 4-byte payload is below
0x10000 is rejected as non-minimal. -/
theorem bigsize_nonminimal_fe (b1 b2 b3 b4 : Nat) (rest : List Nat)
    (h : ((b1 * 256 + b2) * 256 + b3) * 256 + b4 < 0x10000) :
    decodeBigSize (0xfe :: b1 :: b2 :: b3 :: b4 :: rest) 0 = .error .nonMinimal := by
  have hb : bytesToNatBE [b1, b2, b3, b4] = ((b1 * 256 + b2) * 256 + b3) * 256 + b4 := by
    simp [bytesToNatBE]
  simp [decodeBigSize, hb, h]

/-- C5 (non-minimal component): a 0xFF marker whose 8-byte payload is below
0x100000000 is rejected as non-minimal. -/
theorem bigsize_nonminimal_ff (bs rest : List Nat) (hlen : bs.length = 8)
    (h : bytesToNatBE bs < 0x100000000) :
    decodeBigSize (0xff :: (bs ++ rest)) 0 = .error .nonMinimal := by
  have htake : (bs ++ rest).take 8 = bs := by
    rw [List.take_append_of_le_length (le_of_eq hlen.symm), List.take_of_length_le (le_of_eq hlen)]
  simp [decodeBigSize, htake, h, hlen]

/-- C5: BigSize decode/encode round-trips on all 64-bit values with the
offset advanced past the (always shortest-form) encoding; non-minimal
payloads under each marker are rejected with the non-minimal error, which is
a different error from each truncation error raised when the payload bytes
are missing. -/
theorem c5_bigsize_roundtrip_and_minimality :
    (∀ v : Nat, v < 18446744073709551616 →
      decodeBigSize (encodeBigSize v) 0 = .ok (v, (encodeBigSize v).length)) ∧
    (∀ v : Nat, (encodeBigSize v).length =
      if v <= 0xfc then 1 else if v <= 0xffff then 3
      else if v <= 0xffffffff then 5 else 9) ∧
    (∀ b1 b2 : Nat, ∀ rest : List Nat, b1 * 256 + b2 < 0xfd →
      decodeBigSize (0xfd :: b1 :: b2 :: rest) 0 = .error .nonMinimal) ∧
    (∀ b1 b2 b3 b4 : Nat, ∀ rest : List Nat,
      ((b1 * 256 + b2) * 256 + b3) * 256 + b4 < 0x10000 →
      decodeBigSize (0xfe :: b1 :: b2 :: b3 :: b4 :: rest) 0 = .error .nonMinimal) ∧
    (∀ bs rest : List Nat, bs.length = 8 → bytesToNatBE bs < 0x100000000 →
      decodeBigSize (0xff :: (bs ++ rest)) 0 = .error .nonMinimal) ∧
    (decodeBigSize [0xfd] 0 = .error .truncatedU16 ∧
      decodeBigSize [0xfe] 0 = .error .truncatedU32 ∧
      decodeBigSize [0xff] 0 = .error .truncatedU64) ∧
    (Err.nonMinimal ≠ Err.truncatedU16 ∧ Err.nonMinimal ≠ Err.truncatedU32 ∧
      Err.nonMinimal ≠ Err.truncatedU64) :=
  ⟨bigsize_decode_encode, bigsize_encode_length,
    fun b1 b2 rest h => bigsize_nonminimal_fd b1 b2 rest h,
    fun b1 b2 b3 b4 rest h => bigsize_nonminimal_fe b1 b2 b3 b4 rest h,
    fun bs rest h1 h2 => bigsize_nonminimal_ff bs rest h1 h2,
    ⟨rfl, rfl, rfl⟩,
    by refine ⟨?_, ?_, ?_⟩ <;> decide⟩

/-- Witness for C5 at concrete inputs: the boundary value 0xFFFF
round-trips, and the non-minimal encoding of 0xFC under the 0xFD marker is
rejected. -/
theorem c5_bigsize_roundtrip_and_minimality_witness :
    (65535 < 18446744073709551616 ∧
      decodeBigSize (encodeBigSize 65535) 0 = .ok (65535, (encodeBigSize 65535).length)) ∧
    (0 * 256 + 252 < 0xfd ∧
      decodeBigSize [0xfd, 0, 252] 0 = .error .nonMinimal) :=
  ⟨⟨by norm_num, c5_bigsize_roundtrip_and_minimality.1 65535 (by norm_num)⟩,
    ⟨by norm_num, c5_bigsize_roundtrip_and_minimality.2.2.1 0 252 [] (by norm_num)⟩⟩

/-- `natBits` always produces `w` bits. -/
theorem natBits_length (w : Nat) : ∀ n, (natBits w n).length = w := by
  induction w with
  | zero => intro n; rfl
  | succ w ih => intro n; simp [natBits, ih]

/-- `natBits w` only looks at the low `w` bits. -/
theorem natBits_mod_pow (w : Nat) : ∀ n, natBits w (n % 2 ^ w) = natBits w n := by
  induction w with
  | zero => intro n; rfl
  | succ w ih =>
    intro n
    have h2 : (2 : Nat) ^ (w + 1) = 2 * 2 ^ w := by rw [pow_succ]; ring
    have hmod : n % 2 ^ (w + 1) % 2 = n % 2 := by
      rw [h2]; exact Nat.mod_mod_of_dvd n (Dvd.intro (2 ^ w) rfl)
    have hdiv : n % 2 ^ (w + 1) / 2 = n / 2 % 2 ^ w := by
      rw [h2]; exact Nat.mod_mul_right_div_self n 2 (2 ^ w)
    simp [natBits, hmod, hdiv, ih]

/-- `natBits w` only looks at the low `w ≤ m` bits. -/
theorem natBits_mod_pow_le (w m n : Nat) (h : w ≤ m) :
    natBits w (n % 2 ^ m) = natBits w n := by
  rw [← natBits_mod_pow w (n % 2 ^ m), Nat.mod_mod_of_dvd n (pow_dvd_pow 2 h),
    natBits_mod_pow]

/-- Splitting a bit pattern into its high `a` and low `c` bits. -/
theorem natBits_split (a c : Nat) : ∀ v, natBits (a + c) v = natBits a (v / 2 ^ c) ++ natBits c v := by
  induction c with
  | zero => intro v; simp [natBits]
  | succ c ih =>
    intro v
    have hd : v / 2 / 2 ^ c = v / 2 ^ (c + 1) := by
      rw [Nat.div_div_eq_div_mul, pow_succ, Nat.mul_comm (2 ^ c) 2]
    have : a + (c + 1) = (a + c) + 1 := by omega
    rw [this]
    simp only [natBits, ih (v / 2), hd, List.append_assoc]

/-- Bits of `v·2^b + d` for `d < 2^b`: high part `v`, low part `d`. -/
theorem natBits_combine (a b v d : Nat) (hd : d < 2 ^ b) :
    natBits (a + b) (v * 2 ^ b + d) = natBits a v ++ natBits b d := by
  have hdiv : (v * 2 ^ b + d) / 2 ^ b = v := by
    rw [Nat.mul_comm v (2 ^ b), Nat.mul_add_div (Nat.two_pow_pos b), Nat.div_eq_of_lt hd,
      Nat.add_zero]
  have hmod : natBits b (v * 2 ^ b + d) = natBits b d := by
    rw [← natBits_mod_pow b (v * 2 ^ b + d), Nat.mul_add_mod' v (2 ^ b) d,
      Nat.mod_eq_of_lt hd]
  rw [natBits_split a b, hdiv, hmod]

/-- All bits of zero are clear. -/
theorem natBits_zero (w : Nat) : natBits w 0 = List.replicate w false := by
  induction w with
  | zero => rfl
  | succ w ih =>
    rw [List.replicate_succ' w false]
    simp [natBits, ih]

/-- Shifting left by `k` appends `k` clear bits. -/
theorem natBits_shift_pad (b k v : Nat) :
    natBits (b + k) (v * 2 ^ k) = natBits b v ++ List.replicate k false := by
  have := natBits_combine b k v 0 (Nat.two_pow_pos k)
  rw [Nat.add_zero] at this
  rw [this, natBits_zero]

/-- `bitsOf` distributes over append. -/
theorem bitsOf_append (w : Nat) (l1 l2 : List Nat) :
    bitsOf w (l1 ++ l2) = bitsOf w l1 ++ bitsOf w l2 := by
  induction l1 with
  | nil => rfl
  | cons d rest ih => simp [bitsOf, ih]

/-- The bit stream of `l` has `w·|l|` bits. -/
theorem bitsOf_length (w : Nat) (l : List Nat) : (bitsOf w l).length = w * l.length := by
  induction l with
  | nil => simp [bitsOf]
  | cons d rest ih => simp [bitsOf, ih, natBits_length]; ring

/-- `natBits w` is injective below `2^w`. -/
theorem natBits_inj (w : Nat) : ∀ x y, x < 2 ^ w → y < 2 ^ w →
    natBits w x = natBits w y → x = y := by
  induction w with
  | zero => intro x y hx hy _; omega
  | succ w ih =>
    intro x y hx hy h
    simp only [natBits] at h
    have hlen : (natBits w (x / 2)).length = (natBits w (y / 2)).length := by
      rw [natBits_length, natBits_length]
    obtain ⟨h1, h2⟩ := List.append_inj h hlen
    have hx2 : x / 2 < 2 ^ w := by
      rw [Nat.div_lt_iff_lt_mul Nat.zero_lt_two]
      calc x < 2 ^ (w + 1) := hx
      _ = 2 ^ w * 2 := by rw [pow_succ]
    have hy2 : y / 2 < 2 ^ w := by
      rw [Nat.div_lt_iff_lt_mul Nat.zero_lt_two]
      calc y < 2 ^ (w + 1) := hy
      _ = 2 ^ w * 2 := by rw [pow_succ]
    have hdiv : x / 2 = y / 2 := ih (x / 2) (y / 2) hx2 hy2 h1
    have hmod : (x % 2 = 1) = (y % 2 = 1) := by
      have := List.head_eq_of_cons_eq h2
      simpa using this
    have hx3 := Nat.mod_two_eq_zero_or_one x
    have hy3 := Nat.mod_two_eq_zero_or_one y
    have hxe := Nat.div_add_mod x 2
    have hye := Nat.div_add_mod y 2
    rcases hx3 with h3 | h3 <;> rcases hy3 with h4 | h4 <;> simp [h3, h4] at hmod ⊢ <;> omega

/-- Equal bit streams of bounded words give equal word lists. -/
theorem bitsOf_inj (w : Nat) (hw : 0 < w) :
    ∀ l1 l2 : List Nat, (∀ x ∈ l1, x < 2 ^ w) → (∀ x ∈ l2, x < 2 ^ w) →
      bitsOf w l1 = bitsOf w l2 → l1 = l2 := by
  intro l1
  induction l1 with
  | nil =>
    intro l2 _ _ h
    match l2 with
    | [] => rfl
    | d :: rest =>
      exfalso
      have := congrArg List.length h
      simp [bitsOf, natBits_length] at this
      omega
  | cons d rest ih =>
    intro l2 h1 h2 h
    match l2 with
    | [] =>
      exfalso
      have := congrArg List.length h
      simp [bitsOf, natBits_length] at this
      omega
    | e :: rest2 =>
      simp only [bitsOf] at h
      have hlen : (natBits w d).length = (natBits w e).length := by
        rw [natBits_length, natBits_length]
      obtain ⟨hh, ht⟩ := List.append_inj h hlen
      have hd : d = e :=
        natBits_inj w d e (h1 d (List.mem_cons_self d rest)) (h2 e (List.mem_cons_self e rest2)) hh
      have hr : rest = rest2 :=
        ih rest2 (fun x hx => h1 x (List.mem_cons_of_mem d hx))
          (fun x hx => h2 x (List.mem_cons_of_mem e hx)) ht
      rw [hd, hr]

/-- If all `w` low bits are clear then `v` is divisible by `2^w`. -/
theorem natBits_all_false (w : Nat) : ∀ v, natBits w v = List.replicate w false →
    v % 2 ^ w = 0 := by
  induction w with
  | zero => intro v _; simp [Nat.mod_one]
  | succ w ih =>
    intro v h
    rw [List.replicate_succ' w false] at h
    simp only [natBits] at h
    have hlen : (natBits w (v / 2)).length = (List.replicate w false).length := by
      rw [natBits_length, List.length_replicate]
    obtain ⟨h1, h2⟩ := List.append_inj h hlen
    have hd : v / 2 % 2 ^ w = 0 := ih (v / 2) h1
    have hm : v % 2 = 0 := by
      have := List.head_eq_of_cons_eq h2
      rcases Nat.mod_two_eq_zero_or_one v with h3 | h3
      · exact h3
      · simp [h3] at this
    have hsplit : v % 2 ^ (w + 1) = 2 * (v / 2 % 2 ^ w) + v % 2 := by
      have := mod_mul_split v 2 (2 ^ w)
      rwa [← pow_succ'] at this
    omega



/-- Behaviour of the emission loop of `convertBits`: it emits the high bits
of `value` in `outB`-bit words, leaving `bits % outB` bits behind. -/
theorem cbEmit_spec (outB : Nat) (hout : 0 < outB) :
    ∀ fuel value bits, bits ≤ fuel →
      (cbEmit outB fuel value bits).2 = bits % outB ∧
      (∀ x ∈ (cbEmit outB fuel value bits).1, x < 2 ^ outB) ∧
      natBits bits value =
        bitsOf outB (cbEmit outB fuel value bits).1 ++ natBits (bits % outB) value := by
  intro fuel
  induction fuel with
  | zero =>
    intro value bits hb
    have : bits = 0 := by omega
    subst this
    simp [cbEmit, natBits, bitsOf]
  | succ fuel ih =>
    intro value bits hb
    by_cases hge : outB ≤ bits
    · have hb2 : bits - outB ≤ fuel := by omega
      obtain ⟨ih1, ih2, ih3⟩ := ih value (bits - outB) hb2
      have hw : (value >>> (bits - outB)) &&& ((1 <<< outB) - 1) =
          value / 2 ^ (bits - outB) % 2 ^ outB := by
        rw [Nat.one_shiftLeft, Nat.and_pow_two_sub_one_eq_mod, Nat.shiftRight_eq_div_pow]
      have hmod : bits % outB = (bits - outB) % outB := by
        conv_lhs => rw [show bits = (bits - outB) + outB by omega]
        rw [Nat.add_mod_right]
      have hsplitb : natBits bits value =
          natBits outB (value / 2 ^ (bits - outB)) ++ natBits (bits - outB) value := by
        conv_lhs => rw [show bits = outB + (bits - outB) by omega]
        exact natBits_split outB (bits - outB) value
      simp only [cbEmit, if_pos hge]
      refine ⟨by simpa [ih1] using hmod.symm, ?_, ?_⟩
      · intro x hx
        rcases List.mem_cons.mp hx with hx | hx
        · rw [hx, hw]; exact Nat.mod_lt _ (Nat.two_pow_pos outB)
        · exact ih2 x hx
      · simp only [bitsOf, hw, hmod, ih1]
        rw [natBits_mod_pow outB, hsplitb, ih3, List.append_assoc]
    · have : bits % outB = bits := Nat.mod_eq_of_lt (by omega)
      simp [cbEmit, hge, this, bitsOf]

/-- Invariant of the byte-consuming fold of `convertBits`: the bit stream of
the emitted words followed by the leftover bits equals the bit stream of the
input consumed so far. -/
theorem cbFold_spec (inB outB : Nat) (hout : 0 < outB) (hsum : inB + outB ≤ 32) :
    ∀ (data : List Nat) (value bits : Nat) (result : List Nat),
      (∀ d ∈ data, d < 2 ^ inB) → bits < outB → (∀ x ∈ result, x < 2 ^ outB) →
      (data.foldl (cbStep inB outB) (value, bits, result)).2.1 < outB ∧
      (∀ x ∈ (data.foldl (cbStep inB outB) (value, bits, result)).2.2, x < 2 ^ outB) ∧
      bitsOf outB (data.foldl (cbStep inB outB) (value, bits, result)).2.2 ++
          natBits (data.foldl (cbStep inB outB) (value, bits, result)).2.1
            (data.foldl (cbStep inB outB) (value, bits, result)).1 =
        bitsOf outB result ++ natBits bits value ++ bitsOf inB data := by
  intro data
  induction data with
  | nil =>
    intro value bits result _ hbits hres
    refine ⟨hbits, hres, ?_⟩
    simp [bitsOf]
  | cons d rest ih =>
    intro value bits result hd hbits hres
    have hdlt : d < 2 ^ inB := hd d (List.mem_cons_self d rest)
    set v2 := ((value <<< inB) ||| d) % 4294967296 with hv2
    set ER := cbEmit outB (bits + inB) v2 (bits + inB) with hER
    have hX : (value <<< inB) ||| d = value * 2 ^ inB + d := by
      rw [Nat.shiftLeft_eq, Nat.mul_comm value (2 ^ inB),
        ← Nat.mul_add_lt_is_or hdlt value]
    have hnb : natBits (bits + inB) v2 = natBits bits value ++ natBits inB d := by
      rw [hv2, show (4294967296 : Nat) = 2 ^ 32 by norm_num,
        natBits_mod_pow_le (bits + inB) 32 _ (by omega), hX,
        natBits_combine bits inB value d hdlt]
    obtain ⟨he1, he2, he3⟩ := cbEmit_spec outB hout (bits + inB) v2 (bits + inB) (le_refl _)
    rw [← hER] at he1 he2 he3
    have hkey : bitsOf outB ER.1 ++ natBits ER.2 v2 =
        natBits bits value ++ natBits inB d := by
      rw [he1, ← he3, hnb]
    have hstep : List.foldl (cbStep inB outB) (value, bits, result) (d :: rest) =
        List.foldl (cbStep inB outB) (v2, ER.2, result ++ ER.1) rest := rfl
    rw [hstep]
    obtain ⟨hr1, hr2, hr3⟩ := ih v2 ER.2 (result ++ ER.1)
      (fun x hx => hd x (List.mem_cons_of_mem d hx))
      (by rw [he1]; exact Nat.mod_lt _ hout)
      (by
        intro x hx
        rcases List.mem_append.mp hx with hx | hx
        · exact hres x hx
        · exact he2 x hx)
    refine ⟨hr1, hr2, ?_⟩
    rw [hr3, bitsOf_append]
    simp only [bitsOf, List.append_assoc]
    rw [← List.append_assoc (bitsOf outB ER.1) (natBits ER.2 v2), hkey,
      List.append_assoc]


/-- Padding encode direction of `convertBits`: regrouping `inB`-bit words
into `outB`-bit words with `pad = true` always succeeds and produces the
input bit stream followed by the zero padding that completes the last
word. -/
theorem convertBits_pad_spec (inB outB : Nat) (hin : 0 < inB) (hout : 0 < outB)
    (hsum : inB + outB ≤ 32) (data : List Nat) (hd : ∀ d ∈ data, d < 2 ^ inB) :
    ∃ out, convertBits data inB outB true = .ok out ∧
      (∀ x ∈ out, x < 2 ^ outB) ∧
      bitsOf outB out =
        bitsOf inB data ++
          List.replicate ((outB - (inB * data.length) % outB) % outB) false := by
  obtain ⟨hf1, hf2, hf3⟩ := cbFold_spec inB outB hout hsum data 0 0 [] hd hout
    (by intro x hx; cases hx)
  set st := data.foldl (cbStep inB outB) (0, 0, []) with hst
  simp only [bitsOf, natBits, List.append_nil, List.nil_append] at hf3
  have hlen : outB * st.2.2.length + st.2.1 = inB * data.length := by
    have := congrArg List.length hf3
    simp only [List.length_append, bitsOf_length, natBits_length] at this
    omega
  have hbitsF : st.2.1 = (inB * data.length) % outB := by
    rw [← hlen, Nat.mul_add_mod]
    exact (Nat.mod_eq_of_lt hf1).symm
  by_cases hpos : 0 < st.2.1
  · have hk : (outB - (inB * data.length) % outB) % outB = outB - st.2.1 := by
      rw [← hbitsF, Nat.mod_eq_of_lt (by omega)]
    have h32 : (2 : Nat) ^ outB ∣ 4294967296 := by
      rw [show (4294967296 : Nat) = 2 ^ 32 by norm_num]
      exact pow_dvd_pow 2 (by omega)
    have hlast : (st.1 <<< (outB - st.2.1)) % 4294967296 &&& ((1 <<< outB) - 1) =
        (st.1 * 2 ^ (outB - st.2.1)) % 2 ^ outB := by
      rw [Nat.one_shiftLeft, Nat.and_pow_two_sub_one_eq_mod, Nat.mod_mod_of_dvd _ h32,
        Nat.shiftLeft_eq]
    have hps := natBits_shift_pad st.2.1 (outB - st.2.1) st.1
    rw [show st.2.1 + (outB - st.2.1) = outB by omega] at hps
    have hpadbits : natBits outB ((st.1 * 2 ^ (outB - st.2.1)) % 2 ^ outB) =
        natBits st.2.1 st.1 ++ List.replicate (outB - st.2.1) false := by
      rw [natBits_mod_pow outB, hps]
    refine ⟨st.2.2 ++ [(st.1 <<< (outB - st.2.1)) % 4294967296 &&& ((1 <<< outB) - 1)],
      ?_, ?_, ?_⟩
    · simp only [convertBits, ← hst, if_pos hpos, if_pos trivial]
    · intro x hx
      rcases List.mem_append.mp hx with hx | hx
      · exact hf2 x hx
      · rcases List.mem_singleton.mp hx with rfl
        rw [hlast]
        exact Nat.mod_lt _ (Nat.two_pow_pos outB)
    · rw [bitsOf_append, hk]
      have : bitsOf outB [(st.1 <<< (outB - st.2.1)) % 4294967296 &&& ((1 <<< outB) - 1)] =
          natBits st.2.1 st.1 ++ List.replicate (outB - st.2.1) false := by
        simp only [bitsOf, List.append_nil]
        rw [hlast, hpadbits]
      rw [this, ← List.append_assoc, hf3]
  · have hz : st.2.1 = 0 := by omega
    have hk : (outB - (inB * data.length) % outB) % outB = 0 := by
      rw [← hbitsF, hz, Nat.sub_zero, Nat.mod_self]
    refine ⟨st.2.2, ?_, hf2, ?_⟩
    · simp only [convertBits, ← hst, if_neg hpos, if_pos trivial]
    · rw [hk, List.replicate_zero, List.append_nil, ← hf3, hz]
      simp [natBits]

/-- Unpadded decode direction of `convertBits`: if the input bit stream is a
bounded word list's bit stream followed by `k` clear padding bits, with
`k` below both word sizes, then `pad = false` regrouping succeeds and
returns exactly that word list. -/
theorem convertBits_unpad_spec (inB outB : Nat) (hin : 0 < inB) (hout : 0 < outB)
    (hsum : inB + outB ≤ 32) (data out : List Nat) (k : Nat)
    (hd : ∀ d ∈ data, d < 2 ^ inB) (hob : ∀ x ∈ out, x < 2 ^ outB)
    (hk1 : k < inB) (hk2 : k < outB)
    (hbits : bitsOf inB data = bitsOf outB out ++ List.replicate k false) :
    convertBits data inB outB false = .ok out := by
  obtain ⟨hf1, hf2, hf3⟩ := cbFold_spec inB outB hout hsum data 0 0 [] hd hout
    (by intro x hx; cases hx)
  set st := data.foldl (cbStep inB outB) (0, 0, []) with hst
  simp only [bitsOf, natBits, List.append_nil, List.nil_append] at hf3
  rw [hbits] at hf3
  have hlen : outB * st.2.2.length + st.2.1 = outB * out.length + k := by
    have := congrArg List.length hf3
    simp only [List.length_append, bitsOf_length, natBits_length,
      List.length_replicate] at this
    omega
  have hbf : st.2.1 = k := by
    have h1 : (outB * st.2.2.length + st.2.1) % outB = st.2.1 := by
      rw [Nat.mul_add_mod]; exact Nat.mod_eq_of_lt hf1
    have h2 : (outB * out.length + k) % outB = k := by
      rw [Nat.mul_add_mod]; exact Nat.mod_eq_of_lt hk2
    rw [hlen] at h1
    omega
  have hreslen : st.2.2.length = out.length := by
    have := hlen
    rw [hbf] at this
    have h2 : outB * st.2.2.length = outB * out.length := by omega
    exact Nat.eq_of_mul_eq_mul_left hout h2
  have hsplit := List.append_inj hf3 (by rw [bitsOf_length, bitsOf_length, hreslen])
  have hres : st.2.2 = out :=
    bitsOf_inj outB hout st.2.2 out hf2 hob hsplit.1
  have hzero : st.1 % 2 ^ k = 0 := by
    apply natBits_all_false k st.1
    rw [← hbf] at hsplit ⊢
    exact hsplit.2
  have h32 : (2 : Nat) ^ outB ∣ 4294967296 := by
    rw [show (4294967296 : Nat) = 2 ^ 32 by norm_num]
    exact pow_dvd_pow 2 (by omega)
  have hlast : (st.1 <<< (outB - st.2.1)) % 4294967296 &&& ((1 <<< outB) - 1) = 0 := by
    rw [Nat.one_shiftLeft, Nat.and_pow_two_sub_one_eq_mod, Nat.mod_mod_of_dvd _ h32,
      Nat.shiftLeft_eq, hbf,
      show (2 : Nat) ^ outB = 2 ^ k * 2 ^ (outB - k) by rw [← pow_add]; congr 1; omega,
      Nat.mul_mod_mul_right, hzero, Nat.zero_mul]
  simp only [convertBits, ← hst, if_neg (by omega : ¬ st.2.1 ≥ inB), hlast]
  simp [hres]


/-- A string with no `+` is unchanged by the stripping pass. -/
theorem stripPlusAux_eq_self : ∀ s : List Char, (∀ c ∈ s, ¬ c = '+') →
    stripPlusAux false s = s := by
  intro s
  induction s with
  | nil => intro _; rfl
  | cons c rest ih =>
    intro h
    have hc : ¬ c = '+' := h c (List.mem_cons_self c rest)
    simp only [stripPlusAux, Bool.false_eq_true, false_and, if_false, if_neg hc]
    rw [ih (fun x hx => h x (List.mem_cons_of_mem c hx))]

/-- ASCII case-map fixpoint: characters outside `A`–`Z` are unchanged by
`toLower`. -/
theorem toLower_eq_self (c : Char) (h : c.toNat < 65 ∨ 97 ≤ c.toNat) :
    c.toLower = c := by
  unfold Char.toLower
  rw [if_neg (by omega : ¬ (Char.toNat c ≥ 65 ∧ Char.toNat c ≤ 90))]

/-- Charset characters are lowercase-stable. -/
theorem charsetChar_lower : ∀ w, w < 32 → (charsetChar w).toLower = charsetChar w := by
  decide

/-- Charset decode inverts charset encode on 5-bit words. -/
theorem charsetIndex_charsetChar : ∀ w, w < 32 → charsetIndex (charsetChar w) = some w := by
  decide

/-- No charset character is the separator `1`. -/
theorem charsetChar_ne_sep : ∀ w, w < 32 → ¬ charsetChar w = '1' := by
  decide

/-- No charset character is `+`. -/
theorem charsetChar_ne_plus : ∀ w, w < 32 → ¬ charsetChar w = '+' := by
  decide

/-- `indexOf('1')` on `p ++ '1' :: rest` finds the separator right after the
prefix when the prefix avoids `1`. -/
theorem findIdx_sep : ∀ (p rest : List Char) (i : Nat), (∀ c ∈ p, ¬ c = '1') →
    List.findIdx? (fun c => c = '1') (p ++ '1' :: rest) i = some (p.length + i) := by
  intro p
  induction p with
  | nil => intro rest i _; simp
  | cons c p' ih =>
    intro rest i h
    have hc : ¬ c = '1' := h c (List.mem_cons_self c p')
    simp only [List.cons_append, List.findIdx?_cons, decide_eq_true_eq, if_neg hc]
    rw [ih rest (i + 1) (fun x hx => h x (List.mem_cons_of_mem c hx))]
    congr 1
    simp
    omega

/-- Charset decoding undoes charset encoding over a word list. -/
theorem mapM_charsetIndex : ∀ ws : List Nat, (∀ w ∈ ws, w < 32) →
    (ws.map charsetChar).mapM charsetIndex = some ws := by
  intro ws
  induction ws with
  | nil => intro _; rfl
  | cons w ws' ih =>
    intro h
    have hw : w < 32 := h w (List.mem_cons_self w ws')
    simp only [List.map_cons, List.mapM_cons, charsetIndex_charsetChar w hw,
      ih (fun x hx => h x (List.mem_cons_of_mem w hx))]
    rfl

/-- C4 (amended to non-empty byte sequences): the checksum-free envelope
round-trips.  Encoding any non-empty byte sequence under a 3–4 letter
lowercase prefix and decoding recovers the prefix and the bytes exactly. -/
theorem c4_envelope_roundtrip (p : List Char) (b : List Nat)
    (hp1 : 3 ≤ p.length) (hp2 : p.length ≤ 4)
    (hpc : ∀ c ∈ p, 97 ≤ c.toNat ∧ c.toNat ≤ 122)
    (hb : b ≠ []) (hbb : ∀ x ∈ b, x < 256) :
    ∃ words : List Nat,
      convertBits b 8 5 true = .ok words ∧
      bolt12Decode (bolt12Encode p words) = .ok (p, words) ∧
      convertBits words 5 8 false = .ok b := by
  have hb256 : ∀ x ∈ b, x < 2 ^ 8 := by intro x hx; have := hbb x hx; norm_num; omega
  obtain ⟨words, hw1, hw2, hw3⟩ :=
    convertBits_pad_spec 8 5 (by norm_num) (by norm_num) (by norm_num) b hb256
  have hw32 : ∀ w ∈ words, w < 32 := by
    intro w hw; have := hw2 w hw; norm_num at this; omega
  have hk5 : (5 - 8 * b.length % 5) % 5 < 5 := Nat.mod_lt _ (by norm_num)
  have hwne : words ≠ [] := by
    intro hnil
    have := congrArg List.length hw3
    rw [hnil] at this
    simp only [bitsOf, List.length_nil, List.length_append, bitsOf_length,
      List.length_replicate] at this
    have hbl : 1 ≤ b.length := by
      cases b with
      | nil => exact absurd rfl hb
      | cons x xs => simp
    omega
  refine ⟨words, hw1, ?_, ?_⟩
  · -- decode of the envelope string
    have hplet : ∀ c ∈ p, ¬ c = '+' := by
      intro c hc h
      have := congrArg Char.toNat h
      have h43 : Char.toNat '+' = 43 := rfl
      have := (hpc c hc).1
      omega
    have hpone : ∀ c ∈ p, ¬ c = '1' := by
      intro c hc h
      have := congrArg Char.toNat h
      have h49 : Char.toNat '1' = 49 := rfl
      have := (hpc c hc).1
      omega
    have hnoplus : ∀ c ∈ bolt12Encode p words, ¬ c = '+' := by
      intro c hc
      rcases List.mem_append.mp hc with hc | hc
      · exact hplet c hc
      · rcases List.mem_cons.mp hc with hc | hc
        · subst hc; intro h; cases h
        · obtain ⟨w, hw, rfl⟩ := List.mem_map.mp hc
          exact charsetChar_ne_plus w (hw32 w hw)
    have hclean : stripPlus (bolt12Encode p words) = bolt12Encode p words :=
      stripPlusAux_eq_self _ hnoplus
    have hlower : (bolt12Encode p words).map Char.toLower = bolt12Encode p words := by
      apply List.map_congr_left ?_ |>.trans (List.map_id _)
      intro c hc
      rcases List.mem_append.mp hc with hc | hc
      · exact toLower_eq_self c (Or.inr (hpc c hc).1)
      · rcases List.mem_cons.mp hc with hc | hc
        · subst hc; rfl
        · obtain ⟨w, hw, rfl⟩ := List.mem_map.mp hc
          exact charsetChar_lower w (hw32 w hw)
    have hfind : List.findIdx? (fun c => c = '1') (bolt12Encode p words) 0 =
        some p.length := by
      rw [bolt12Encode, findIdx_sep p _ 0 hpone, Nat.add_zero]
    have htake : (bolt12Encode p words).take p.length = p :=
      List.take_left p ('1' :: words.map charsetChar)
    have hdrop : (bolt12Encode p words).drop (p.length + 1) = words.map charsetChar := by
      have : bolt12Encode p words = (p ++ ['1']) ++ words.map charsetChar := by
        simp [bolt12Encode]
      rw [this]
      exact List.drop_left' (by simp)
    have hmapne : words.map charsetChar ≠ [] := by
      intro h
      exact hwne (List.map_eq_nil_iff.mp h)
    simp only [bolt12Decode, hclean, hlower]
    rw [if_neg (fun h => h.1 rfl)]
    simp only [hfind, htake, hdrop]
    rw [if_neg (by omega : ¬ p.length < 1)]
    rw [if_neg (by simpa [List.length_eq_zero] using hmapne)]
    simp only [mapM_charsetIndex words hw32]
  · -- re-grouping back to bytes
    exact convertBits_unpad_spec 5 8 (by norm_num) (by norm_num) (by norm_num)
      words b ((5 - 8 * b.length % 5) % 5) hw32 hb256 hk5 (by omega) hw3

/-- C4 counterexample at the empty byte sequence: encoding `[]` under the
prefix `lno` yields the four-character string `lno1`, whose decode fails
with the empty-data error instead of round-tripping. -/
theorem c4_envelope_empty_counterexample :
    convertBits [] 8 5 true = .ok [] ∧
    bolt12Decode (bolt12Encode ['l', 'n', 'o'] []) = .error .emptyData := by
  constructor
  · rfl
  · rfl


/-- Witness for C4 at a concrete input: prefix `lno`, bytes `[171, 205]`. -/
theorem c4_envelope_roundtrip_witness :
    ∃ words : List Nat,
      convertBits [171, 205] 8 5 true = .ok words ∧
      bolt12Decode (bolt12Encode ['l', 'n', 'o'] words) = .ok (['l', 'n', 'o'], words) ∧
      convertBits words 5 8 false = .ok [171, 205] :=
  c4_envelope_roundtrip ['l', 'n', 'o'] [171, 205] (by decide) (by decide)
    (by decide) (by decide) (by decide)


/-- signature.ts `compareBytes` is antisymmetric. -/
theorem compareBytes_antisymm (a : List Nat) : ∀ b, compareBytes a b = -compareBytes b a := by
  induction a with
  | nil => intro b; cases b <;> simp [compareBytes]
  | cons x xs ih =>
    intro b
    cases b with
    | nil => simp [compareBytes]
    | cons y ys =>
      by_cases h1 : x < y
      · simp [compareBytes, h1, show ¬ y < x by omega]
      · by_cases h2 : y < x
        · simp [compareBytes, h1, h2]
        · have hxy : x = y := by omega
          subst hxy
          simp [compareBytes, Nat.lt_irrefl, ih ys]

/-- signature.ts `compareBytes` returns 0 only on equal byte lists. -/
theorem compareBytes_eq_zero (a : List Nat) : ∀ b, compareBytes a b = 0 → a = b := by
  induction a with
  | nil =>
    intro b h
    cases b with
    | nil => rfl
    | cons y ys =>
      exfalso
      simp only [compareBytes, List.length_cons] at h
      omega
  | cons x xs ih =>
    intro b h
    cases b with
    | nil =>
      exfalso
      simp only [compareBytes, List.length_cons] at h
      omega
    | cons y ys =>
      simp only [compareBytes] at h
      by_cases h1 : x < y
      · rw [if_pos h1] at h; exact absurd h (by decide)
      · by_cases h2 : y < x
        · rw [if_neg h1, if_pos h2] at h; exact absurd h (by decide)
        · have hxy : x = y := by omega
          rw [if_neg h1, if_neg h2] at h
          rw [hxy, ih ys h]

/-- Inner-node construction is position-independent. -/
theorem branchHash_comm (a b : List Nat) : branchHash a b = branchHash b a := by
  have hanti := compareBytes_antisymm a b
  unfold branchHash
  by_cases h1 : compareBytes a b ≤ 0
  · by_cases h2 : compareBytes b a ≤ 0
    · have h0 : compareBytes a b = 0 := by omega
      have hab : a = b := compareBytes_eq_zero a b h0
      subst hab
      simp
    · rw [if_pos h1, if_neg h2]
  · by_cases h2 : compareBytes b a ≤ 0
    · rw [if_neg h1, if_pos h2]
    · exfalso; omega

/-- A stable by-type sort sends type-distinct permutation-equivalent lists
to the same sorted list. -/
theorem sortTlvs_eq_of_perm (l1 l2 : List TlvEntry)
    (hnd : (l1.map TlvEntry.type).Nodup) (hp : l1.Perm l2) :
    sortTlvs l1 = sortTlvs l2 := by
  haveI : IsTotal TlvEntry (fun a b => a.type ≤ b.type) :=
    ⟨fun a b => Nat.le_total a.type b.type⟩
  haveI : IsTrans TlvEntry (fun a b => a.type ≤ b.type) :=
    ⟨fun a b c hab hbc => Nat.le_trans hab hbc⟩
  haveI : IsAntisymm TlvEntry (fun a b => a.type < b.type) :=
    ⟨fun a b hab hba => absurd (Nat.lt_trans hab hba) (Nat.lt_irrefl _)⟩
  have hs1 : List.Sorted (fun a b : TlvEntry => a.type ≤ b.type) (sortTlvs l1) :=
    List.sorted_insertionSort _ l1
  have hs2 : List.Sorted (fun a b : TlvEntry => a.type ≤ b.type) (sortTlvs l2) :=
    List.sorted_insertionSort _ l2
  have hperm : (sortTlvs l1).Perm (sortTlvs l2) :=
    (List.perm_insertionSort _ l1).trans (hp.trans (List.perm_insertionSort _ l2).symm)
  have hnd1 : ((sortTlvs l1).map TlvEntry.type).Nodup :=
    (((List.perm_insertionSort _ l1).map TlvEntry.type).symm).nodup hnd
  have hnd2 : ((sortTlvs l2).map TlvEntry.type).Nodup :=
    ((hp.map TlvEntry.type).trans
      ((List.perm_insertionSort _ l2).map TlvEntry.type).symm).nodup hnd
  have hss1 : List.Sorted (fun a b : TlvEntry => a.type < b.type) (sortTlvs l1) :=
    (hs1.and (List.pairwise_map.mp hnd1)).imp
      (fun h => Nat.lt_of_le_of_ne h.1 h.2)
  have hss2 : List.Sorted (fun a b : TlvEntry => a.type < b.type) (sortTlvs l2) :=
    (hs2.and (List.pairwise_map.mp hnd2)).imp
      (fun h => Nat.lt_of_le_of_ne h.1 h.2)
  exact List.eq_of_perm_of_sorted hperm hss1 hss2

/-- The Merkle root only depends on the input through the sorted entry
list. -/
theorem computeMerkleRoot_eq_of_sort_eq (l1 l2 : List TlvEntry)
    (h : sortTlvs l1 = sortTlvs l2) :
    computeMerkleRoot l1 = computeMerkleRoot l2 := by
  unfold computeMerkleRoot
  rw [h]

/-- C1: on a single-entry list the Merkle root is the branch hash of the
entry's leaf `H("LnLeaf", serialise(e))` and nonce
`H_raw("LnNonce" ‖ serialise(e), BigSize(e.type))`. -/
theorem c1_single_entry_merkle_root (e : TlvEntry) :
    computeMerkleRoot [e] =
      .ok (branchHash (taggedHash lnLeafTag (serializeTlv e))
        (taggedHashRaw (lnNonceTag ++ serializeTlv e) (encodeBigSize e.type))) := rfl

/-- C2 (amended to lists of pairwise-distinct types): the Merkle root is
invariant under permutations of a type-distinct entry list, deterministic,
and the inner-node constructor is position-independent. -/
theorem c2_merkle_determinism_and_symmetry :
    (∀ l1 l2 : List TlvEntry, (l1.map TlvEntry.type).Nodup → l1.Perm l2 →
      computeMerkleRoot l1 = computeMerkleRoot l2) ∧
    (∀ l : List TlvEntry, computeMerkleRoot l = computeMerkleRoot l) ∧
    (∀ a b : List Nat, branchHash a b = branchHash b a) :=
  ⟨fun l1 l2 hnd hp => computeMerkleRoot_eq_of_sort_eq l1 l2 (sortTlvs_eq_of_perm l1 l2 hnd hp),
    fun _ => rfl, branchHash_comm⟩

/-- Witness for C2 at a concrete type-distinct list and its swap. -/
theorem c2_merkle_determinism_and_symmetry_witness :
    ((([⟨2, [5]⟩, ⟨3, [6]⟩] : List TlvEntry).map TlvEntry.type).Nodup ∧
      List.Perm [(⟨2, [5]⟩ : TlvEntry), ⟨3, [6]⟩] [⟨3, [6]⟩, ⟨2, [5]⟩]) ∧
    computeMerkleRoot [(⟨2, [5]⟩ : TlvEntry), ⟨3, [6]⟩] =
      computeMerkleRoot [⟨3, [6]⟩, ⟨2, [5]⟩] :=
  ⟨⟨by decide, by decide⟩,
    c2_merkle_determinism_and_symmetry.1 _ _ (by decide) (by decide)⟩

set_option maxRecDepth 8192 in
/-- C2 counterexample: with two entries of the SAME type and different
values, the stable sort preserves the input order, the first-entry nonce
tag differs between the two orders, and the two Merkle roots are different
32-byte strings — so permutation invariance fails for general entry
lists. -/
theorem c2_merkle_permutation_counterexample :
    List.Perm [(⟨1, [0]⟩ : TlvEntry), ⟨1, [1]⟩] [⟨1, [1]⟩, ⟨1, [0]⟩] ∧
    computeMerkleRoot [(⟨1, [0]⟩ : TlvEntry), ⟨1, [1]⟩] ≠
      computeMerkleRoot [⟨1, [1]⟩, ⟨1, [0]⟩] := by
  refine ⟨by decide, by decide⟩

/-- C3: both signing and verification hash exactly the entries whose type
lies strictly outside the reserved window [240, 1000]: the digest is built
from `computeMerkleRoot` of the filtered list, membership in the filtered
list is equivalent to membership plus `type < 240 ∨ type > 1000`, and every
entry with `240 ≤ type ≤ 1000` (not only type 240) is excluded. -/
theorem c3_signature_filter_window :
    (∀ (sSign : List Nat → List Nat → List Nat) (tlvs : List TlvEntry)
        (sk : List Nat) (k : MsgKind),
      signBolt12 sSign tlvs sk k =
        (computeMerkleRoot (tlvs.filter fun t => t.type < 240 ∨ t.type > 1000)).map
          (fun root => sSign (taggedHash (signatureTag k signatureFieldBytes) root) sk)) ∧
    (∀ (tlvs : List TlvEntry) (e : TlvEntry),
      e ∈ tlvs.filter (fun t => t.type < 240 ∨ t.type > 1000) ↔
        e ∈ tlvs ∧ (e.type < 240 ∨ e.type > 1000)) ∧
    (∀ (tlvs : List TlvEntry) (e : TlvEntry), 240 ≤ e.type → e.type ≤ 1000 →
      e ∉ tlvs.filter (fun t => t.type < 240 ∨ t.type > 1000)) ∧
    (∀ (sVerify : List Nat → List Nat → List Nat → Bool) (tlvs : List TlvEntry)
        (sig pk : List Nat) (k : MsgKind), sig.length = 64 → pk.length = 32 →
      verifyBolt12Signature sVerify tlvs sig pk k =
        (computeMerkleRoot (tlvs.filter fun t => t.type < 240 ∨ t.type > 1000)).map
          (fun root => sVerify sig (taggedHash (signatureTag k signatureFieldBytes) root) pk)) := by
  refine ⟨?_, ?_, ?_, ?_⟩
  · intro sSign tlvs sk k
    unfold signBolt12
    cases h : computeMerkleRoot (tlvs.filter fun t => t.type < 240 ∨ t.type > 1000) <;>
      simp [h, Except.map, Bind.bind, Except.bind]
  · intro tlvs e
    simp [List.mem_filter]
  · intro tlvs e h1 h2 hmem
    rw [List.mem_filter] at hmem
    have := of_decide_eq_true hmem.2
    omega
  · intro sVerify tlvs sig pk k hsig hpk
    unfold verifyBolt12Signature
    rw [if_neg (by omega), if_neg (by omega), if_pos hpk]
    cases h : computeMerkleRoot (tlvs.filter fun t => t.type < 240 ∨ t.type > 1000) <;>
      simp [h, Except.map, Bind.bind, Except.bind]

/-- Witness for C3 at concrete inputs: a type-300 entry (inside the window,
different from 240) is excluded from the digest input, and a verification
with well-formed lengths reduces to the Schnorr check of the filtered
digest. -/
theorem c3_signature_filter_window_witness :
    (240 ≤ (300 : Nat) ∧ (300 : Nat) ≤ 1000 ∧
      (⟨300, []⟩ : TlvEntry) ∉
        ([⟨10, [120]⟩, ⟨300, []⟩] : List TlvEntry).filter
          (fun t => t.type < 240 ∨ t.type > 1000)) ∧
    (List.replicate 64 0).length = 64 ∧ (List.replicate 32 2).length = 32 ∧
    verifyBolt12Signature (fun _ _ _ => true) [⟨10, [120]⟩, ⟨300, []⟩]
        (List.replicate 64 0) (List.replicate 32 2) MsgKind.offer =
      (computeMerkleRoot (([⟨10, [120]⟩, ⟨300, []⟩] : List TlvEntry).filter
          fun t => t.type < 240 ∨ t.type > 1000)).map
        (fun root => (fun _ _ _ => true : List Nat → List Nat → List Nat → Bool)
          (List.replicate 64 0)
          (taggedHash (signatureTag MsgKind.offer signatureFieldBytes) root)
          (List.replicate 32 2)) :=
  ⟨⟨by norm_num, by norm_num,
      c3_signature_filter_window.2.2.1 _ _ (by norm_num) (by norm_num)⟩,
    by simp, by simp,
    c3_signature_filter_window.2.2.2 _ _ _ _ _ (by simp) (by simp)⟩


/-- A bound `Except` computation avoids an error value that neither side
produces. -/
theorem except_bind_ne {α β : Type} {x : Except Err α} {f : α → Except Err β} {E : Err}
    (hx : x ≠ .error E) (hf : ∀ a, f a ≠ .error E) : (x >>= f) ≠ .error E := by
  cases x with
  | error e =>
    intro h
    rw [show ((Except.error e : Except Err α) >>= f) = (Except.error e : Except Err β) from rfl] at h
    exact hx (by rw [Except.error.inj h])
  | ok a =>
    rw [show ((Except.ok a : Except Err α) >>= f) = f a from rfl]
    exact hf a

/-- Error inversion for bound `Except` computations. -/
theorem except_bind_error {α β : Type} {x : Except Err α} {f : α → Except Err β} {E : Err}
    (h : (x >>= f) = .error E) : x = .error E ∨ ∃ a, x = .ok a ∧ f a = .error E := by
  cases x with
  | error e =>
    rw [show ((Except.error e : Except Err α) >>= f) = (Except.error e : Except Err β) from rfl] at h
    exact Or.inl (by rw [Except.error.inj h])
  | ok a =>
    rw [show ((Except.ok a : Except Err α) >>= f) = f a from rfl] at h
    exact Or.inr ⟨a, rfl, h⟩

/-- Success inversion for bound `Except` computations. -/
theorem except_bind_ok {α β : Type} {x : Except Err α} {f : α → Except Err β} {b : β}
    (h : (x >>= f) = .ok b) : ∃ a, x = .ok a ∧ f a = .ok b := by
  cases x with
  | error e =>
    rw [show ((Except.error e : Except Err α) >>= f) = (Except.error e : Except Err β) from rfl] at h
    exact Except.noConfusion h
  | ok a =>
    rw [show ((Except.ok a : Except Err α) >>= f) = f a from rfl] at h
    exact ⟨a, rfl, h⟩

/-- `encodeTu64` only ever raises the too-large error. -/
theorem encodeTu64_error (v : Nat) (E : Err) :
    encodeTu64 v = .error E → E = .tu64TooLarge := by
  unfold encodeTu64 tu64ToBytes
  split
  · intro h; exact (Except.error.inj h).symm
  · split <;> intro h <;> exact Except.noConfusion h

/-- `numberToBytesBE` only ever raises the value-too-large error. -/
theorem numberToBytesBE_error (v n : Nat) (E : Err) :
    numberToBytesBE v n = .error E → E = .numberTooLarge := by
  unfold numberToBytesBE
  split
  · intro h; exact Except.noConfusion h
  · intro h; exact (Except.error.inj h).symm

/-- `encodeHop` only ever raises the value-too-large error. -/
theorem encodeHop_error (hop : BlindedHop) (E : Err) :
    encodeHop hop = .error E → E = .numberTooLarge := by
  unfold encodeHop
  intro h
  rcases except_bind_error h with h | ⟨a, _, h⟩
  · exact numberToBytesBE_error _ _ _ h
  · exact Except.noConfusion h

/-- `encodeHops` only ever raises the value-too-large error. -/
theorem encodeHops_error : ∀ (hops : List BlindedHop) (E : Err),
    encodeHops hops = .error E → E = .numberTooLarge := by
  intro hops
  induction hops with
  | nil => intro E h; exact Except.noConfusion h
  | cons hop rest ih =>
    intro E h
    rcases except_bind_error h with h | ⟨a, _, h⟩
    · exact encodeHop_error hop E h
    · rcases except_bind_error h with h | ⟨b, _, h⟩
      · exact ih E h
      · exact Except.noConfusion h

/-- `encodeBlindedPaths` only ever raises the value-too-large error. -/
theorem encodeBlindedPaths_error : ∀ (ps : List BlindedPath) (E : Err),
    encodeBlindedPaths ps = .error E → E = .numberTooLarge := by
  intro ps
  induction ps with
  | nil => intro E h; exact Except.noConfusion h
  | cons path rest ih =>
    intro E h
    rcases except_bind_error h with h | ⟨a, _, h⟩
    · exact encodeHops_error path.hops E h
    · rcases except_bind_error h with h | ⟨b, _, h⟩
      · exact ih E h
      · exact Except.noConfusion h

/-- `optTu64Tlv` only ever raises the tu64 too-large error. -/
theorem optTu64Tlv_error (ty : Nat) (oa : Option Nat) (E : Err) :
    optTu64Tlv ty oa = .error E → E = .tu64TooLarge := by
  cases oa with
  | none => intro h; exact Except.noConfusion h
  | some a =>
    cases h2 : encodeTu64 a with
    | error e =>
      intro h
      simp only [optTu64Tlv, h2, Except.map] at h
      rw [← Except.error.inj h]
      exact encodeTu64_error a e h2
    | ok v =>
      intro h
      simp only [optTu64Tlv, h2, Except.map] at h
      exact Except.noConfusion h

/-- `optPathsTlv` only ever raises the value-too-large error. -/
theorem optPathsTlv_error (o : Option (List BlindedPath)) (E : Err) :
    optPathsTlv o = .error E → E = .numberTooLarge := by
  cases o with
  | none => intro h; exact Except.noConfusion h
  | some ps =>
    cases h2 : encodeBlindedPaths ps with
    | error e =>
      intro h
      simp only [optPathsTlv, h2, Except.map] at h
      rw [← Except.error.inj h]
      exact encodeBlindedPaths_error ps e h2
    | ok v =>
      intro h
      simp only [optPathsTlv, h2, Except.map] at h
      exact Except.noConfusion h

/-- The TLV-building tail of `encodeOffer` only ever raises tu64/byte-width
overflow errors. -/
theorem offerTlvList_error (o : OfferEncodeOptions) (E : Err) :
    offerTlvList o = .error E → E = .tu64TooLarge ∨ E = .numberTooLarge := by
  unfold offerTlvList
  intro h
  rcases except_bind_error h with h8 | ⟨v8, _, h⟩
  · exact Or.inl (optTu64Tlv_error _ _ _ h8)
  · rcases except_bind_error h with h14 | ⟨v14, _, h⟩
    · exact Or.inl (optTu64Tlv_error _ _ _ h14)
    · rcases except_bind_error h with h16 | ⟨v16, _, h⟩
      · exact Or.inr (optPathsTlv_error _ _ h16)
      · rcases except_bind_error h with h20 | ⟨v20, _, h⟩
        · exact Or.inl (optTu64Tlv_error _ _ _ h20)
        · exact Except.noConfusion h

/-- `convertBits` with `pad = true` never raises (both pad-branch outcomes
are `ok`). -/
theorem convertBits_pad_always_ok (data : List Nat) (inB outB : Nat) :
    ∃ out, convertBits data inB outB true = .ok out := by
  unfold convertBits
  split
  · dsimp only
    split
    · exact ⟨_, rfl⟩
    · exact ⟨_, rfl⟩
  · rename_i hf
    exact absurd rfl hf

/-- `convertBits` with `pad = true` never raises. -/
theorem convertBits_pad_ne_error (data : List Nat) (inB outB : Nat) (E : Err) :
    convertBits data inB outB true ≠ .error E := by
  obtain ⟨out, hout⟩ := convertBits_pad_always_ok data inB outB
  rw [hout]
  exact fun h => Except.noConfusion h

/-- `encodeBolt12` never raises. -/
theorem encodeBolt12_ne_error (k : MsgKind) (tlvs : List TlvEntry) (E : Err) :
    encodeBolt12 k tlvs ≠ .error E := by
  unfold encodeBolt12
  apply except_bind_ne
  · exact convertBits_pad_ne_error _ _ _ _
  · intro a h; exact Except.noConfusion h

/-- C9: `encodeOffer` raises the issuerId-or-paths error exactly on options
with no issuerId and no non-empty paths; the error precedes any TLV
building (the first conjunct holds whatever the remaining fields are). -/
theorem c9_offer_issuer_or_paths :
    (∀ o : OfferEncodeOptions, o.issuerId = none → (o.paths = none ∨ o.paths = some []) →
      encodeOffer o = .error .noIssuerIdOrPaths) ∧
    (∀ o : OfferEncodeOptions, o.issuerId ≠ none ∨ (∃ ps, o.paths = some ps ∧ ps ≠ []) →
      encodeOffer o ≠ .error .noIssuerIdOrPaths) := by
  constructor
  · intro o h1 h2
    unfold encodeOffer buildOfferTlvs
    rw [if_pos ⟨by simp [h1], by rcases h2 with h | h <;> simp [h]⟩]
    rfl
  · intro o h
    have hcond : ¬ (o.issuerId.isNone ∧ (o.paths.isNone ∨ o.paths = some [])) := by
      rcases h with h | ⟨ps, hps, hne⟩
      · exact fun hc => h (Option.isNone_iff_eq_none.mp hc.1)
      · intro hc
        rcases hc.2 with h2 | h2
        · rw [hps] at h2; simp at h2
        · rw [hps] at h2; exact hne (Option.some.inj h2)
    unfold encodeOffer buildOfferTlvs
    rw [if_neg hcond]
    apply except_bind_ne
    · split
      · intro hh; exact Err.noConfusion (Except.error.inj hh)
      · split
        · intro hh; exact Err.noConfusion (Except.error.inj hh)
        · intro hh
          rcases offerTlvList_error o _ hh with h | h <;> exact Err.noConfusion h
    · intro a
      exact encodeBolt12_ne_error _ _ _

/-- Witness for C9: every-field-absent options raise the error; options
with an issuerId never raise it. -/
theorem c9_offer_issuer_or_paths_witness :
    encodeOffer ⟨none, none, none, none, none, none, none, none, none, none, none⟩ =
      .error .noIssuerIdOrPaths ∧
    encodeOffer ⟨some (List.replicate 33 2), some [120], none, none, none, none, none,
      none, none, none, none⟩ ≠ .error .noIssuerIdOrPaths :=
  ⟨c9_offer_issuer_or_paths.1 _ rfl (Or.inl rfl),
    c9_offer_issuer_or_paths.2 _ (Or.inl (by simp))⟩

/-- C10 counterexample: options with `amountMsat = 0`, an issuerId, no
description — but a currency — do NOT succeed: the zero amount is falsy, so
the currency-requires-amount check throws.  This refutes the unconditional
"it succeeds" of the claim. -/
theorem c10_zero_amount_counterexample :
    encodeOffer ⟨some (List.replicate 33 2), none, some 0, some [85, 83, 68], none, none,
      none, none, none, none, none⟩ = .error .currencyWithoutAmount := by
  decide

/-- C10 (amended): with `amountMsat = 0` the amount-requires-description
error is never raised (truthiness, not presence, is tested); every
successful build contains the TLV of type 8 with the empty tu64 value; and
the currency-free instance of the claim's options does succeed. -/
theorem c10_zero_amount_truthiness :
    (∀ o : OfferEncodeOptions, o.amountMsat = some 0 →
      encodeOffer o ≠ .error .amountWithoutDescription) ∧
    (∀ (o : OfferEncodeOptions) (tlvs : List TlvEntry), o.amountMsat = some 0 →
      buildOfferTlvs o = .ok tlvs → (⟨8, []⟩ : TlvEntry) ∈ tlvs) ∧
    (∃ out, encodeOffer ⟨some (List.replicate 33 2), none, some 0, none, none, none, none,
      none, none, none, none⟩ = .ok out) := by
  refine ⟨?_, ?_, ?_⟩
  · intro o h
    unfold encodeOffer buildOfferTlvs
    apply except_bind_ne
    · split
      · intro hh; exact Err.noConfusion (Except.error.inj hh)
      · rw [if_neg (by simp [truthyNat, h])]
        split
        · intro hh; exact Err.noConfusion (Except.error.inj hh)
        · intro hh
          rcases offerTlvList_error o _ hh with hx | hx <;> exact Err.noConfusion hx
    · intro a
      exact encodeBolt12_ne_error _ _ _
  · intro o tlvs h hok
    unfold buildOfferTlvs at hok
    split at hok
    · exact Except.noConfusion hok
    · split at hok
      · exact Except.noConfusion hok
      · split at hok
        · exact Except.noConfusion hok
        · unfold offerTlvList at hok
          rcases except_bind_ok hok with ⟨v8, h8, hok⟩
          rw [h] at h8
          have hv8 : v8 = [(⟨8, []⟩ : TlvEntry)] := by
            have : optTu64Tlv 8 (some 0) = .ok [(⟨8, []⟩ : TlvEntry)] := rfl
            rw [this] at h8
            exact (Except.ok.inj h8).symm
          subst hv8
          rcases except_bind_ok hok with ⟨v14, _, hok⟩
          rcases except_bind_ok hok with ⟨v16, _, hok⟩
          rcases except_bind_ok hok with ⟨v20, _, hok⟩
          have := Except.ok.inj hok
          subst this
          simp [List.mem_append]
  · exact ⟨_, rfl⟩

/-- C7 counterexample: with an empty error message, both directions throw
the missing-error-message error, not the suggested-value rule — encode side
with `suggestedValue` set and no `erroneousField`, decode side on the
stream `[3, 1, 1, 5, 0]` (TLV 3 then an empty TLV 5, no TLV 1). -/
theorem c7_empty_error_counterexample :
    encodeInvoiceError ⟨[], none, some [1]⟩ = .error .missingErrorMessage ∧
    decodeInvoiceError [3, 1, 1, 5, 0] = .error .missingErrorMessage := by
  exact ⟨rfl, rfl⟩

/-- Behaviour of the `decodeInvoiceError` field loop on streams without a
type-1 entry: it cannot throw, leaves `erroneousField` untouched, records a
suggested value whenever one is present, and ends with a non-empty error
message whenever some type-5 entry exists and all of them are
non-empty. -/
theorem invoiceError_fold_no_type1 : ∀ (entries : List TlvEntry),
    (∀ e ∈ entries, e.type ≠ 1) → ∀ acc : InvoiceError,
    ∃ r, entries.foldlM invoiceErrorStep acc = .ok r ∧
      r.erroneousField = acc.erroneousField ∧
      (acc.suggestedValue.isSome ∨ (∃ e ∈ entries, e.type = 3) → r.suggestedValue.isSome) ∧
      ((acc.error ≠ [] ∨ (∃ e ∈ entries, e.type = 5 ∧ e.value ≠ [])) →
        (∀ e ∈ entries, e.type = 5 → e.value ≠ []) → r.error ≠ []) := by
  intro entries
  induction entries with
  | nil =>
    intro _ acc
    refine ⟨acc, rfl, rfl, ?_, ?_⟩
    · rintro (h | ⟨e, he, _⟩)
      · exact h
      · exact absurd he (List.not_mem_nil e)
    · rintro (h | ⟨e, he, _⟩) _
      · exact h
      · exact absurd he (List.not_mem_nil e)
  | cons e rest ih =>
    intro h1 acc
    have he1 : e.type ≠ 1 := h1 e (List.mem_cons_self e rest)
    have hrest : ∀ x ∈ rest, x.type ≠ 1 := fun x hx => h1 x (List.mem_cons_of_mem e hx)
    have hstep : ∃ acc2 : InvoiceError, invoiceErrorStep acc e = .ok acc2 ∧
        acc2.erroneousField = acc.erroneousField ∧
        (acc.suggestedValue.isSome → acc2.suggestedValue.isSome) ∧
        (e.type = 3 → acc2.suggestedValue.isSome) ∧
        (e.type = 5 → acc2.error = e.value) ∧
        (e.type ≠ 5 → acc2.error = acc.error) := by
      unfold invoiceErrorStep
      split
      · exact absurd (by assumption) he1
      · exact ⟨_, rfl, rfl, fun _ => rfl, fun _ => rfl,
          fun h5 => absurd ((by assumption : e.type = 3) ▸ h5) (by norm_num),
          fun _ => rfl⟩
      · exact ⟨_, rfl, rfl, fun h => h, fun h3 => absurd ((by assumption : e.type = 5) ▸ h3)
          (by norm_num), fun _ => rfl,
          fun h5 => absurd (by assumption : e.type = 5) h5⟩
      · rename_i ht1 ht3 ht5
        exact ⟨_, rfl, rfl, fun h => h, fun h3 => absurd h3 ht3, fun h5 => absurd h5 ht5,
          fun _ => rfl⟩
    obtain ⟨acc2, hs, hef, hsv1, hsv3, herr5, herrk⟩ := hstep
    obtain ⟨r, hr, ref, rsv, rerr⟩ := ih hrest acc2
    refine ⟨r, ?_, by rw [ref, hef], ?_, ?_⟩
    · simp only [List.foldlM_cons, hs]
      exact hr
    · rintro (h | ⟨x, hx, hx3⟩)
      · exact rsv (Or.inl (hsv1 h))
      · rcases List.mem_cons.mp hx with rfl | hx
        · exact rsv (Or.inl (hsv3 hx3))
        · exact rsv (Or.inr ⟨x, hx, hx3⟩)
    · intro hex hall
      have hall2 : ∀ x ∈ rest, x.type = 5 → x.value ≠ [] :=
        fun x hx => hall x (List.mem_cons_of_mem e hx)
      by_cases he5 : e.type = 5
      · have hv : acc2.error = e.value := herr5 he5
        have hvne : e.value ≠ [] := hall e (List.mem_cons_self e rest) he5
        exact rerr (Or.inl (hv ▸ hvne)) hall2
      · have hacc : acc2.error = acc.error := herrk he5
        rcases hex with h | ⟨x, hx, hx5, hxv⟩
        · exact rerr (Or.inl (hacc ▸ h)) hall2
        · rcases List.mem_cons.mp hx with rfl | hx
          · exact absurd hx5 he5
          · exact rerr (Or.inr ⟨x, hx, hx5, hxv⟩) hall2

/-- C7 (amended: the error message must be non-empty, otherwise the
missing-error-message rule fires first): `encodeInvoiceError` with a
suggested value, no erroneous field and a non-empty message throws the
suggested-value rule; and `decodeInvoiceError` on any stream with a type-3
entry, non-empty type-5 entries (at least one) and no type-1 entry throws
the same rule. -/
theorem c7_suggested_value_rule :
    (∀ o : InvoiceErrorEncodeOptions, o.error ≠ [] → o.suggestedValue.isSome →
      o.erroneousField = none →
      encodeInvoiceError o = .error .suggestedValueWithoutErroneousField) ∧
    (∀ (bytes : List Nat) (entries : List TlvEntry),
      decodeTlvStream bytes = .ok entries →
      (∃ e ∈ entries, e.type = 3) →
      (∀ e ∈ entries, e.type ≠ 1) →
      (∃ e ∈ entries, e.type = 5 ∧ e.value ≠ []) →
      (∀ e ∈ entries, e.type = 5 → e.value ≠ []) →
      decodeInvoiceError bytes = .error .suggestedValueWithoutErroneousField) := by
  constructor
  · intro o he hsv hef
    unfold encodeInvoiceError
    rw [if_neg he, if_pos ⟨hsv, by rw [hef]; rfl⟩]
  · intro bytes entries hstream h3 h1 h5ex h5all
    obtain ⟨r, hr, ref, rsv, rerr⟩ :=
      invoiceError_fold_no_type1 entries h1 ⟨none, none, [], entries⟩
    unfold decodeInvoiceError
    rw [hstream]
    show invoiceErrorFromTlvs entries = _
    unfold invoiceErrorFromTlvs
    rw [hr]
    show (if r.error = [] then _ else _) = _
    rw [if_neg (rerr (Or.inr h5ex) h5all),
      if_pos ⟨rsv (Or.inr h3), by rw [ref]; rfl⟩]

/-- Witness for C7 at concrete inputs: encode options with error message
"x", and the byte stream `[3, 1, 9, 5, 1, 120]` (TLV 3 = [9], TLV 5 =
"x"). -/
theorem c7_suggested_value_rule_witness :
    encodeInvoiceError ⟨[120], none, some [1]⟩ =
      .error .suggestedValueWithoutErroneousField ∧
    decodeInvoiceError [3, 1, 9, 5, 1, 120] =
      .error .suggestedValueWithoutErroneousField :=
  ⟨c7_suggested_value_rule.1 _ (by decide) (by decide) rfl,
    c7_suggested_value_rule.2 [3, 1, 9, 5, 1, 120] [⟨3, [9]⟩, ⟨5, [120]⟩] (by decide)
      (by decide) (by decide) (by decide) (by decide)⟩


/-- Witness for C10 at the claim's concrete options (no currency): the
amount-description error is not raised, and the built TLV list contains the
type-8 entry with empty value. -/
theorem c10_zero_amount_truthiness_witness :
    encodeOffer ⟨some (List.replicate 33 2), none, some 0, none, none, none, none, none,
      none, none, none⟩ ≠ .error .amountWithoutDescription ∧
    (⟨8, []⟩ : TlvEntry) ∈ [(⟨8, []⟩ : TlvEntry), ⟨22, List.replicate 33 2⟩] ∧
    buildOfferTlvs ⟨some (List.replicate 33 2), none, some 0, none, none, none, none, none,
      none, none, none⟩ = .ok [⟨8, []⟩, ⟨22, List.replicate 33 2⟩] :=
  ⟨c10_zero_amount_truthiness.1
      ⟨some (List.replicate 33 2), none, some 0, none, none, none, none, none,
        none, none, none⟩ rfl,
    c10_zero_amount_truthiness.2.1
      ⟨some (List.replicate 33 2), none, some 0, none, none, none, none, none,
        none, none, none⟩
      [⟨8, []⟩, ⟨22, List.replicate 33 2⟩] rfl (by decide),
    by decide⟩


/-- Inserting the continuation marker `+\n␣␣` at any point of a string
whose stripped form has no whitespace does not change the stripped form. -/
theorem stripPlusAux_insert : ∀ (x : List Char) (b : Bool) (y : List Char),
    (∀ c ∈ stripPlusAux b (x ++ y), ¬ jsWhitespace c) →
    stripPlusAux b (x ++ '+' :: '\n' :: ' ' :: ' ' :: y) = stripPlusAux b (x ++ y) := by
  intro x
  induction x with
  | nil =>
    intro b y hy
    rw [List.nil_append] at hy ⊢
    have l1 : stripPlusAux b ('+' :: '\n' :: ' ' :: ' ' :: y) = stripPlusAux true y := by
      cases b <;> rfl
    rw [l1]
    cases b with
    | false =>
      cases y with
      | nil => rfl
      | cons c y2 =>
        by_cases hwc : jsWhitespace c = true
        · exfalso
          have hcp : ¬ c = '+' := by
            intro hc
            rw [hc] at hwc
            exact absurd hwc (by decide)
          have hmem : c ∈ stripPlusAux false (c :: y2) := by
            simp only [stripPlusAux, Bool.false_eq_true, false_and, if_false, if_neg hcp]
            exact List.mem_cons_self c _
          exact hy c hmem hwc
        · by_cases hc : c = '+'
          · simp [stripPlusAux, hc]
          · simp [stripPlusAux, hwc, hc]
    | true => rfl
  | cons c x' ih =>
    intro b y hy
    by_cases hbc : b = true ∧ jsWhitespace c = true
    · have e1 : stripPlusAux b ((c :: x') ++ '+' :: '\n' :: ' ' :: ' ' :: y) =
          stripPlusAux true (x' ++ '+' :: '\n' :: ' ' :: ' ' :: y) := by
        simp only [List.cons_append, stripPlusAux, List.append_eq, if_pos hbc]
      have e2 : stripPlusAux b ((c :: x') ++ y) = stripPlusAux true (x' ++ y) := by
        simp only [List.cons_append, stripPlusAux, List.append_eq, if_pos hbc]
      rw [e1, e2]
      exact ih true y (by rw [← e2]; exact hy)
    · by_cases hc : c = '+'
      · have e1 : stripPlusAux b ((c :: x') ++ '+' :: '\n' :: ' ' :: ' ' :: y) =
            stripPlusAux true (x' ++ '+' :: '\n' :: ' ' :: ' ' :: y) := by
          simp only [List.cons_append, stripPlusAux, List.append_eq, if_neg hbc, if_pos hc]
        have e2 : stripPlusAux b ((c :: x') ++ y) = stripPlusAux true (x' ++ y) := by
          simp only [List.cons_append, stripPlusAux, List.append_eq, if_neg hbc, if_pos hc]
        rw [e1, e2]
        exact ih true y (by rw [← e2]; exact hy)
      · have e1 : stripPlusAux b ((c :: x') ++ '+' :: '\n' :: ' ' :: ' ' :: y) =
            c :: stripPlusAux false (x' ++ '+' :: '\n' :: ' ' :: ' ' :: y) := by
          simp only [List.cons_append, stripPlusAux, List.append_eq, if_neg hbc, if_neg hc]
        have e2 : stripPlusAux b ((c :: x') ++ y) =
            c :: stripPlusAux false (x' ++ y) := by
          simp only [List.cons_append, stripPlusAux, List.append_eq, if_neg hbc, if_neg hc]
        rw [e1, e2]
        have hy2 : ∀ d ∈ stripPlusAux false (x' ++ y), ¬ jsWhitespace d := by
          intro d hd
          exact hy d (by rw [e2]; exact List.mem_cons_of_mem c hd)
        rw [ih false y hy2]

/-- `indexOf('1')` decomposition: a found index splits the string around a
`'1'`. -/
theorem findIdx?_sep_decomp : ∀ (l : List Char) (j i : Nat),
    List.findIdx? (fun c => c = '1') l j = some i →
    j ≤ i ∧ l.take (i - j) ++ '1' :: l.drop (i - j + 1) = l := by
  intro l
  induction l with
  | nil => intro j i h; exact absurd h (by simp)
  | cons c rest ih =>
    intro j i h
    simp only [List.findIdx?_cons, decide_eq_true_eq] at h
    by_cases hc : c = '1'
    · rw [if_pos hc] at h
      have hij : i = j := (Option.some.inj h).symm
      subst hij
      subst hc
      simp
    · rw [if_neg hc] at h
      obtain ⟨hji, hdec⟩ := ih (j + 1) i h
      refine ⟨by omega, ?_⟩
      have hd : i - j = (i - (j + 1)) + 1 := by omega
      rw [hd]
      simp only [List.take_succ_cons, List.drop_succ_cons, List.cons_append]
      rw [hdec]

/-- A successfully charset-decoded character is a charset character. -/
theorem charsetIndexAux_mem : ∀ (l : List Char) (c : Char) (j i : Nat),
    charsetIndexAux l c j = some i → c ∈ l := by
  intro l
  induction l with
  | nil => intro c j i h; exact Option.noConfusion h
  | cons x rest ih =>
    intro c j i h
    simp only [charsetIndexAux] at h
    by_cases hx : x = c
    · rw [hx]; exact List.mem_cons_self c rest
    · rw [if_neg hx] at h
      exact List.mem_cons_of_mem x (ih c (j + 1) i h)

/-- Every character of a charset-decodable string is a charset
character. -/
theorem mapM_charsetIndex_mem : ∀ (l : List Char) (d : List Nat),
    l.mapM charsetIndex = some d → ∀ c ∈ l, c ∈ CHARSET := by
  intro l
  induction l with
  | nil => intro d _ c hc; exact absurd hc (List.not_mem_nil c)
  | cons x rest ih =>
    intro d h c hc
    rw [List.mapM_cons] at h
    cases hx : charsetIndex x with
    | none => rw [hx] at h; exact Option.noConfusion h
    | some i =>
      rw [hx] at h
      cases hr : rest.mapM charsetIndex with
      | none =>
        rw [hr] at h
        exact Option.noConfusion h
      | some ds =>
        rcases List.mem_cons.mp hc with rfl | hc
        · exact charsetIndexAux_mem CHARSET c 0 i hx
        · exact ih ds hr c hc

/-- No charset character is whitespace. -/
theorem charset_not_ws : ∀ c ∈ CHARSET, jsWhitespace c = false := by
  intro c hc
  have h : CHARSET.all (fun c => !jsWhitespace c) = true := rfl
  simpa using List.all_eq_true.mp h c hc

/-- A decodable BOLT 12 string has no whitespace left after stripping: its
cleaned form is an `lno`/`lnr`/`lni` prefix, the separator, and charset
characters. -/
theorem decodeBolt12_ok_no_ws (s : List Char) (r : DecodedBolt12)
    (h : decodeBolt12 s = .ok r) : ∀ c ∈ stripPlus s, ¬ jsWhitespace c := by
  rcases except_bind_ok h with ⟨pr, hpr, h⟩
  rcases except_bind_ok h with ⟨kind, hkind, h⟩
  have hhrp : pr.1 = ['l', 'n', 'o'] ∨ pr.1 = ['l', 'n', 'r'] ∨ pr.1 = ['l', 'n', 'i'] := by
    by_cases h1 : pr.1 = ['l', 'n', 'o']
    · exact Or.inl h1
    · by_cases h2 : pr.1 = ['l', 'n', 'r']
      · exact Or.inr (Or.inl h2)
      · by_cases h3 : pr.1 = ['l', 'n', 'i']
        · exact Or.inr (Or.inr h3)
        · rw [if_neg h1, if_neg h2, if_neg h3] at hkind
          exact Except.noConfusion hkind
  -- invert the envelope decode
  unfold bolt12Decode at hpr
  dsimp only at hpr
  split at hpr
  · exact Except.noConfusion hpr
  · split at hpr
    · exact Except.noConfusion hpr
    · rename_i pos hfind
      split at hpr
      · exact Except.noConfusion hpr
      · rename_i hpos
        split at hpr
        · exact Except.noConfusion hpr
        · rename_i hne
          split at hpr
          · exact Except.noConfusion hpr
          · rename_i data hmap
            have hprv : (((stripPlus s).map Char.toLower).take pos,
                data) = pr := Except.ok.inj hpr
            obtain ⟨hj, hdecomp⟩ := findIdx?_sep_decomp _ 0 pos hfind
            rw [Nat.sub_zero] at hdecomp
            -- every lowered character is a prefix char, the separator, or a
            -- charset char
            have hlow : ∀ c ∈ (stripPlus s).map Char.toLower, jsWhitespace c = false := by
              intro c hc
              rw [← hdecomp] at hc
              rcases List.mem_append.mp hc with hc | hc
              · have hpre : c ∈ pr.1 := by
                  rw [← hprv]
                  exact hc
                rcases hhrp with he | he | he <;> rw [he] at hpre <;>
                  simp only [List.mem_cons, List.not_mem_nil, or_false] at hpre <;>
                  rcases hpre with rfl | rfl | rfl <;> rfl
              · rcases List.mem_cons.mp hc with rfl | hc
                · rfl
                · exact charset_not_ws c (mapM_charsetIndex_mem _ data hmap c hc)
            intro c hc hws
            have hmem : Char.toLower c ∈ (stripPlus s).map Char.toLower :=
              List.mem_map_of_mem Char.toLower hc
            have hfix : Char.toLower c = c := by
              simp only [jsWhitespace, decide_eq_true_eq] at hws
              rcases hws with rfl | rfl | rfl | rfl | rfl | rfl <;> rfl
            rw [hfix] at hmem
            rw [hlow c hmem] at hws
            exact Bool.noConfusion hws

/-- `decodeBolt12` only looks at its input through the stripping pass. -/
theorem decodeBolt12_strip_congr (s1 s2 : List Char)
    (h : stripPlus s1 = stripPlus s2) : decodeBolt12 s1 = decodeBolt12 s2 := by
  unfold decodeBolt12 bolt12Decode
  rw [h]

/-- C8: inserting the four-character continuation marker `+`, newline,
space, space at any split point of a decodable string leaves the decode
result unchanged. -/
theorem c8_envelope_concatenation (s : List Char) (k : Nat) (r : DecodedBolt12)
    (h : decodeBolt12 s = .ok r) :
    decodeBolt12 (s.take k ++ '+' :: '\n' :: ' ' :: ' ' :: s.drop k) = .ok r := by
  have hws := decodeBolt12_ok_no_ws s r h
  have hsplit : s.take k ++ s.drop k = s := List.take_append_drop k s
  have hstrip : stripPlus (s.take k ++ '+' :: '\n' :: ' ' :: ' ' :: s.drop k) =
      stripPlus s := by
    have hins := stripPlusAux_insert (s.take k) false (s.drop k)
      (by rw [hsplit]; exact hws)
    unfold stripPlus
    rw [hins, hsplit]
  rw [decodeBolt12_strip_congr _ _ hstrip]
  exact h


/-- C8 witness: the offer `lno1pgz8getnws` (TLV stream `[10, 4, 't', 'e',
's', 't']`) decodes, and splitting it at position 4 with the inserted
continuation marker decodes to the same result. -/
theorem c8_envelope_concatenation_witness :
    decodeBolt12 ['l', 'n', 'o', '1', 'p', 'g', 'z', '8', 'g', 'e', 't', 'n', 'w', 's'] =
      .ok (.offer ⟨[⟨10, [116, 101, 115, 116]⟩], none, some [116, 101, 115, 116],
        none, none, none, none, none, none, none, none, none, none, none⟩) ∧
    decodeBolt12 ((['l', 'n', 'o', '1', 'p', 'g', 'z', '8', 'g', 'e', 't', 'n', 'w', 's'].take 4) ++
        '+' :: '\n' :: ' ' :: ' ' ::
        (['l', 'n', 'o', '1', 'p', 'g', 'z', '8', 'g', 'e', 't', 'n', 'w', 's'].drop 4)) =
      .ok (.offer ⟨[⟨10, [116, 101, 115, 116]⟩], none, some [116, 101, 115, 116],
        none, none, none, none, none, none, none, none, none, none, none⟩) :=
  ⟨by decide, c8_envelope_concatenation _ 4 _ (by decide)⟩

/-- C6: `decodeBolt12` does NOT reject unknown even TLV types. The offer
`lno1pgz8getnwsvqzqq` carries the TLV stream `[10, 4, 't', 'e', 's', 't',
24, 1, 0]` — an unknown EVEN type 24 inside the defined offer range — yet
decoding succeeds, silently keeping the entry in `tlvs` and ignoring it
(the decode loops have no default-case error). The odd-type variant
`lno1pgz8getnwstszqq` (type 23) succeeds likewise, so even and odd unknown
types are treated identically, contrary to the required "it's OK to be
odd" rule. -/
theorem c6_unknown_even_type_accepted :
    decodeBolt12 ['l', 'n', 'o', '1', 'p', 'g', 'z', '8', 'g', 'e', 't', 'n', 'w', 's', 'v', 'q', 'z', 'q', 'q'] =
      .ok (.offer ⟨[⟨10, [116, 101, 115, 116]⟩, ⟨24, [0]⟩], none, some [116, 101, 115, 116],
        none, none, none, none, none, none, none, none, none, none, none⟩) ∧
    decodeBolt12 ['l', 'n', 'o', '1', 'p', 'g', 'z', '8', 'g', 'e', 't', 'n', 'w', 's', 't', 's', 'z', 'q', 'q'] =
      .ok (.offer ⟨[⟨10, [116, 101, 115, 116]⟩, ⟨23, [0]⟩], none, some [116, 101, 115, 116],
        none, none, none, none, none, none, none, none, none, none, none⟩) :=
  ⟨by decide, by decide⟩

end Bolt12
